import Mathlib

/-!
A shallow embedding of the core of the Sentry repository-watcher
(change detection, trigger planning, and group deployment execution),
with theorems settling the behavioural claims of its specification.

Source files embedded here: the monitor service (`MonitorService`:
`CheckAllRepositories`, `checkRepository`, `checkRepositoryBranch`,
`GetLatestCommit`), the deploy service (`DeployService`: `DeployGroup`,
`deployGroupParallel`, `deployGroupSequential`, `DeployIndividual`,
`deployRepository`, `executeDeploymentCommands`), and configuration
handling (`expandEnvVars`).

External effects (HTTP responses, subprocess exit statuses, directory
creation) are abstracted as explicit parameters; wall-clock durations and
log output are not modelled except where a logging expression can panic
(string slicing), which is modelled explicitly.
-/

namespace Sentry

/-! ## Configuration data model (config.go) -/

/-- `AuthConfig` from config.go. -/
structure AuthConfig where
  username : String
  token : String
deriving Repr, DecidableEq

/-- `MonitorConfig` from config.go. -/
structure MonitorConfig where
  repoURL : String
  branches : List String
  repoType : String
  auth : AuthConfig
deriving Repr, DecidableEq

/-- `DeployConfig` from config.go. -/
structure DeployConfig where
  qaRepoURL : String
  qaRepoBranch : String
  repoType : String
  auth : AuthConfig
  projectName : String
  commands : List String
deriving Repr, DecidableEq

/-- `RepositoryConfig` from config.go (`webhook_url` omitted: unused by the
embedded code paths). An empty `group` string means "no group", as in Go. -/
structure RepositoryConfig where
  name : String
  group : String
  monitor : MonitorConfig
  deploy : DeployConfig
deriving Repr, DecidableEq

/-- `GroupConfig` from config.go. Go `int` fields are modelled as `Int`. -/
structure GroupConfig where
  executionStrategy : String
  maxParallel : Int
  continueOnError : Bool
  globalTimeout : Int
deriving Repr, DecidableEq

/-- `GlobalConfig` from config.go. -/
structure GlobalConfig where
  tmpDir : String
  cleanup : Bool
  logLevel : String
  timeout : Int
deriving Repr, DecidableEq

/-- `Config` from config.go. Go's `map[string]GroupConfig` is modelled as an
association list (the group lookup used by the embedded code is key-based,
so iteration order of this map never matters for it). -/
structure Config where
  pollingInterval : Int
  groups : List (String × GroupConfig)
  repositories : List RepositoryConfig
  global : GlobalConfig
deriving Repr, DecidableEq

/-- Key-based lookup in an association list, i.e. Go's `m[k]` two-result
form restricted to the first matching key. -/
def lookupAssoc {α : Type} (l : List (String × α)) (k : String) : Option α :=
  match l with
  | [] => none
  | (k', v) :: rest => if k' = k then some v else lookupAssoc rest k

/-- Go map write `m[k] = v` on an association list: replace the first
entry with this key when present, append otherwise. -/
def insertAssoc {α : Type} (l : List (String × α)) (k : String) (v : α) :
    List (String × α) :=
  match l with
  | [] => [(k, v)]
  | (k', v') :: rest =>
    if k' = k then (k', v) :: rest else (k', v') :: insertAssoc rest k v

/-! ## Monitor data model (the monitor service source file) -/

/-- `CommitInfo` from the monitor source. The `time.Time` timestamp is
modelled as an opaque `Int` (Unix seconds); only equality of `sha` is ever
inspected by the embedded code. -/
structure CommitInfo where
  sha : String
  message : String
  author : String
  timestamp : Int
  url : String
deriving Repr, DecidableEq

/-- The monitor's `lastCommit map[string]string` (SeenMap): keys are
`repoName ++ ":" ++ branch`, values are commit fingerprints. Modelled as an
association list with first-key-wins lookup and in-place update. -/
abbrev SeenMap := List (String × String)

/-- Go map read `m.lastCommit[key]`. -/
def lookupSeen (m : SeenMap) (k : String) : Option String :=
  lookupAssoc m k

/-- Go map write `m.lastCommit[key] = v`. -/
def insertSeen (m : SeenMap) (k v : String) : SeenMap :=
  insertAssoc m k v

/-- Outcome of `checkRepositoryBranch`. `panicked` models the Go runtime
panic raised by the logging expressions `commit.SHA[:8]` / `lastSHA[:8]`
when the sliced string is shorter than 8 bytes; the carried `SeenMap` is
the map contents at the moment of the panic. -/
inductive BranchOutcome where
  | fetchFailed (msg : String)
  | panicked (seen : SeenMap)
  | done (changed : Bool) (seen : SeenMap)
deriving Repr, DecidableEq

/-- `checkRepositoryBranch` from the monitor source, with the result of
`GetLatestCommit` supplied as the `fetch` argument.

Order of operations mirrors the source: on a fetch error the map is
untouched; on first observation the fingerprint is installed *before* the
`commit.SHA[:8]` log slice (so a short fingerprint panics after the
install); on a changed fingerprint the `lastSHA[:8]`/`commit.SHA[:8]` log
slices run *before* the map update. -/
def checkRepositoryBranch (seen : SeenMap) (repoName branch : String)
    (fetch : Except String CommitInfo) : BranchOutcome :=
  match fetch with
  | .error e =>
    .fetchFailed ("failed to get latest commit for branch " ++ branch ++ ": " ++ e)
  | .ok commit =>
    let key := repoName ++ ":" ++ branch
    match lookupSeen seen key with
    | none =>
      let seen' := insertSeen seen key commit.sha
      if commit.sha.utf8ByteSize < 8 then .panicked seen' else .done false seen'
    | some lastSHA =>
      if commit.sha ≠ lastSHA then
        if lastSHA.utf8ByteSize < 8 ∨ commit.sha.utf8ByteSize < 8 then
          .panicked seen
        else
          .done true (insertSeen seen key commit.sha)
      else
        .done false seen

/-- Per-repository scan result, as produced by `checkRepository`:
either the branch loop panicked, or it returned `(bool, error)` in Go,
here split into `failed` (non-nil error, bool is false) and
`changed`/`unchanged`. -/
inductive RepoResult where
  | panic
  | failed (msg : String)
  | changed
  | unchanged
deriving Repr, DecidableEq

/-- Result of `checkRepository`: the outcome, the SeenMap after the branch
loop, and the list of branches actually probed (in probe order). -/
structure RepoCheck where
  res : RepoResult
  seen : SeenMap
  probed : List String
deriving Repr, DecidableEq

/-- `checkRepository` from the monitor source: probes the configured
branches in order, stopping at the first branch whose check errors
(`return false, err`), reports a change (`return true, nil`), or panics.
`fetch` supplies the `GetLatestCommit` result per branch. -/
def checkRepository (fetch : String → Except String CommitInfo)
    (seen : SeenMap) (repoName : String) : List String → RepoCheck
  | [] => ⟨.unchanged, seen, []⟩
  | b :: bs =>
    match checkRepositoryBranch seen repoName b (fetch b) with
    | .fetchFailed e => ⟨.failed e, seen, [b]⟩
    | .panicked s' => ⟨.panic, s', [b]⟩
    | .done true s' => ⟨.changed, s', [b]⟩
    | .done false s' =>
      let r := checkRepository fetch s' repoName bs
      ⟨r.res, r.seen, b :: r.probed⟩

/-- `GroupTrigger` from the monitor source (`TriggerTime`, a wall-clock
stamp, is not modelled). -/
structure GroupTrigger where
  groupName : String
  repositories : List String
  triggerRepo : String
deriving Repr, DecidableEq

/-- The per-tick trigger plan accumulated by `CheckAllRepositories`:
`triggeredGroups` (insertion-ordered association list standing for the Go
map, whose keys are unique by construction), `triggeredIndividual`, and the
collected per-repository error strings. -/
structure TriggerPlan where
  groups : List (String × GroupTrigger)
  individuals : List String
  errors : List String
deriving Repr, DecidableEq

/-- The declared member names of group `g`, in declaration order: the inner
loop `for _, r := range m.config.Repositories { if r.Group == repo.Group }`
of `CheckAllRepositories`. -/
def groupMembers (cfg : Config) (g : String) : List String :=
  (cfg.repositories.filter (fun r => r.group = g)).map (·.name)

/-- Append the member names `ms` to the member list of the trigger stored
under key `K` (the loop body `triggeredGroups[repo.Group].Repositories =
append(...)` of `CheckAllRepositories`, expressed as a map over the
entries). -/
def appendMembers (ms : List String) (K : String) (p : String × GroupTrigger) :
    String × GroupTrigger :=
  if p.1 = K then (p.1, ⟨p.2.groupName, p.2.repositories ++ ms, p.2.triggerRepo⟩) else p

/-- The body of `CheckAllRepositories` for one changed repository that
belongs to a group: create the group's trigger entry if absent (recording
the triggering repository), then append the full declared membership to
its member list. Note the append runs on *every* changed member, not only
when the entry is created. -/
def addGroupTrigger (cfg : Config) (groups : List (String × GroupTrigger))
    (repo : RepositoryConfig) : List (String × GroupTrigger) :=
  let groups1 :=
    if (lookupAssoc groups repo.group).isNone then
      groups ++ [(repo.group, ⟨repo.group, [], repo.name⟩)]
    else groups
  groups1.map (appendMembers (groupMembers cfg repo.group) repo.group)

/-- One step of the planning fold of `CheckAllRepositories`, applied to the
scan outcome of a single repository. -/
def planStep (cfg : Config) (plan : TriggerPlan) (repo : RepositoryConfig) :
    RepoResult → TriggerPlan
  | .panic => plan
  | .failed e => { plan with errors := plan.errors ++ [repo.name ++ ": " ++ e] }
  | .unchanged => plan
  | .changed =>
    if repo.group ≠ "" then
      { plan with groups := addGroupTrigger cfg plan.groups repo }
    else
      { plan with individuals := plan.individuals ++ [repo.name] }

/-- The planning fold of `CheckAllRepositories` over per-repository scan
outcomes (lines 95–126 of the monitor source), starting from an
accumulator. -/
def buildPlanFrom (cfg : Config) : TriggerPlan →
    List (RepositoryConfig × RepoResult) → TriggerPlan
  | plan, [] => plan
  | plan, (r, o) :: rest => buildPlanFrom cfg (planStep cfg plan r o) rest

/-- The planning fold starting from the empty plan. -/
def buildTriggerPlan (cfg : Config) (outcomes : List (RepositoryConfig × RepoResult)) :
    TriggerPlan :=
  buildPlanFrom cfg ⟨[], [], []⟩ outcomes

/-- Result of scanning all repositories in a tick: the per-repository
outcomes in declaration order (truncated at a panic), the final SeenMap,
every `(repo, branch)` pair actually probed, and whether the tick
panicked. -/
structure ScanResult where
  outcomes : List (RepositoryConfig × RepoResult)
  seen : SeenMap
  probed : List (String × String)
  panicked : Bool
deriving Repr, DecidableEq

/-- The scanning loop of `CheckAllRepositories`: each configured repository
is checked in declaration order with the SeenMap threaded through; a
repository whose check errors is recorded and the loop continues
(`continue`); a panic aborts the tick. `fetch` supplies the
`GetLatestCommit` result per repository name and branch. -/
def scanRepositories (fetch : String → String → Except String CommitInfo)
    (seen : SeenMap) : List RepositoryConfig → ScanResult
  | [] => ⟨[], seen, [], false⟩
  | r :: rs =>
    let c := checkRepository (fetch r.name) seen r.name r.monitor.branches
    let pairs := c.probed.map (fun b => (r.name, b))
    match c.res with
    | .panic => ⟨[(r, .panic)], c.seen, pairs, true⟩
    | o =>
      let rest := scanRepositories fetch c.seen rs
      ⟨(r, o) :: rest.outcomes, rest.seen, pairs ++ rest.probed, rest.panicked⟩

/-- Result of one tick of `CheckAllRepositories`. The scanning loop and
the plan accumulation are interleaved in the source's single loop; they
are factored here into scan-then-fold, which is observationally identical
because the plan state and the SeenMap state are disjoint. When
`panicked` is true the dispatch loops never run. -/
structure TickResult where
  plan : TriggerPlan
  seen : SeenMap
  probed : List (String × String)
  panicked : Bool
deriving Repr, DecidableEq

/-- `CheckAllRepositories` from the monitor source, up to (and including)
construction of the trigger plan that its dispatch loops consume: each
group entry is then handed to `triggerGroupDeployment` exactly once, and
each individual entry to `triggerIndividualDeployment` exactly once. -/
def checkAllRepositories (cfg : Config)
    (fetch : String → String → Except String CommitInfo) (seen : SeenMap) :
    TickResult :=
  let s := scanRepositories fetch seen cfg.repositories
  ⟨buildTriggerPlan cfg s.outcomes, s.seen, s.probed, s.panicked⟩

/-! ## GetLatestCommit and its retry loop -/

/-- `true` iff `pat` occurs as a contiguous run inside `s`
(`strings.Contains`). -/
def charsContain (s pat : List Char) : Bool :=
  match s with
  | [] => pat.isEmpty
  | _ :: t => pat.isPrefixOf s || charsContain t pat

/-- `strings.Contains` on strings. -/
def strContains (s pat : String) : Bool :=
  charsContain s.toList pat.toList

/-- One platform API attempt, abstracting the HTTP transport: either a
decoded commit, a non-200 HTTP response (status and body), a transport
error, or a JSON decode error. -/
inductive AttemptResult where
  | ok (commit : CommitInfo)
  | httpError (status : Nat) (body : String)
  | transportError (msg : String)
  | decodeError (msg : String)
deriving Repr, DecidableEq

/-- The platform word used in `getGitHubLatestCommit` /
`getGitLabLatestCommit` / `getGiteaLatestCommit` error strings. -/
def platformWord : String → String
  | "github" => "GitHub"
  | "gitlab" => "GitLab"
  | "gitea" => "Gitea"
  | t => t

/-- The error string produced by one `get{Platform}LatestCommit` call for a
given attempt outcome (`fmt.Errorf` formats in the source). -/
def fetchAttempt (plat : String) : AttemptResult → Except String CommitInfo
  | .ok c => .ok c
  | .httpError status body =>
    .error (platformWord plat ++ " API error (status " ++ toString status ++ "): " ++ body)
  | .transportError m => .error ("HTTP request failed: " ++ m)
  | .decodeError m => .error ("failed to parse " ++ platformWord plat ++ " response: " ++ m)

/-- Observable trace of `GetLatestCommit`: the returned value, the number
of HTTP requests issued, and the number of 2-second retry sleeps taken. -/
structure FetchTrace where
  result : Except String CommitInfo
  requests : Nat
  sleeps : Nat
deriving Repr

/-- The retry loop body of `GetLatestCommit`
(`for attempt := 0; attempt <= MaxRetries; attempt++`, MaxRetries = 3,
RetryDelay = 2 s): each attempt after the first sleeps first; a successful
attempt returns; a failed attempt records `lastErr` and, when its error
text contains the substring `"status 4"`, breaks out of the loop. After
the loop the error is wrapped as `failed after 3 retries`. `fuel` is the
number of loop iterations remaining. -/
def retryLoop (plat : String) (attempts : Nat → AttemptResult) :
    Nat → Nat → Option String → Nat → Nat → FetchTrace
  | _, 0, lastErr, rq, sl =>
    ⟨.error ("failed after 3 retries: " ++ lastErr.getD ""), rq, sl⟩
  | a, fuel + 1, _, rq, sl =>
    let sl' := if a > 0 then sl + 1 else sl
    match fetchAttempt plat (attempts a) with
    | .ok c => ⟨.ok c, rq + 1, sl'⟩
    | .error e =>
      if strContains e "status 4" then
        ⟨.error ("failed after 3 retries: " ++ e), rq + 1, sl'⟩
      else
        retryLoop plat attempts (a + 1) fuel (some e) (rq + 1) sl'

/-- `GetLatestCommit` from the monitor source, with the platform HTTP layer
abstracted as `attempts` (outcome of the n-th request). An unsupported
repository type returns immediately from inside the loop without issuing a
request; otherwise the retry loop runs for at most `MaxRetries + 1 = 4`
attempts. -/
def getLatestCommit (plat : String) (attempts : Nat → AttemptResult) : FetchTrace :=
  if plat = "github" ∨ plat = "gitlab" ∨ plat = "gitea" then
    retryLoop plat attempts 0 4 none 0 0
  else
    ⟨.error ("unsupported repository type: " ++ plat), 0, 0⟩

/-- Modelled from the spec: the retry policy as the specification states
it — a response with HTTP status in 400–499 fails immediately; a 5xx, a
transport error, or a decode error is retried (up to 3 retries, 2-second
delay). The retry decision looks at the HTTP status itself, not at the
error text. Used to exhibit where `GetLatestCommit` diverges from the
spec's words. -/
def specRetryable : AttemptResult → Bool
  | .ok _ => false
  | .httpError status _ => ¬ (400 ≤ status ∧ status ≤ 499)
  | .transportError _ => true
  | .decodeError _ => true

/-- Modelled from the spec: the retry loop with the spec's status-based
non-retryable test in place of the source's error-text test. -/
def specRetryLoop (plat : String) (attempts : Nat → AttemptResult) :
    Nat → Nat → Option String → Nat → Nat → FetchTrace
  | _, 0, lastErr, rq, sl =>
    ⟨.error ("failed after 3 retries: " ++ lastErr.getD ""), rq, sl⟩
  | a, fuel + 1, _, rq, sl =>
    let sl' := if a > 0 then sl + 1 else sl
    match fetchAttempt plat (attempts a) with
    | .ok c => ⟨.ok c, rq + 1, sl'⟩
    | .error e =>
      if specRetryable (attempts a) then
        specRetryLoop plat attempts (a + 1) fuel (some e) (rq + 1) sl'
      else
        ⟨.error ("failed after 3 retries: " ++ e), rq + 1, sl'⟩

/-- Modelled from the spec: `GetLatestCommit` under the spec's retry
policy. -/
def specGetLatestCommit (plat : String) (attempts : Nat → AttemptResult) : FetchTrace :=
  if plat = "github" ∨ plat = "gitlab" ∨ plat = "gitea" then
    specRetryLoop plat attempts 0 4 none 0 0
  else
    ⟨.error ("unsupported repository type: " ++ plat), 0, 0⟩

/-! ## Environment-variable expansion (config.go `expandEnvVars`) -/

/-- A character matching Go's `[A-Za-z0-9_]` (ASCII). -/
def isWordChar (c : Char) : Bool :=
  c.isAlpha || c.isDigit || c = '_'

/-- A character matching Go's `[A-Za-z_]` (ASCII). -/
def isWordStart (c : Char) : Bool :=
  c.isAlpha || c = '_'

/-- First pass of `expandEnvVars`: `re1.ReplaceAllStringFunc` for the
pattern `\$\{([^}]+)\}` with leftmost-first matching. At `${`, the greedy
`[^}]+` runs to the first `}`; a match requires that run to be non-empty
and the `}` to be present, and the whole `${NAME}` is replaced by
`env NAME` (Go `os.Getenv`, the empty string when unset). Positions that
do not start a match are copied through. `fuel` bounds the scan (each
step consumes at least one character, so `l.length` fuel always
suffices and the `0` case with a non-empty list is unreachable). -/
def expandBraceGo (env : String → String) : Nat → List Char → List Char
  | 0, l => l
  | _ + 1, [] => []
  | fuel + 1, '$' :: '{' :: rest =>
    match rest.dropWhile (· ≠ '}') with
    | '}' :: rest' =>
      let name := rest.takeWhile (· ≠ '}')
      if name.isEmpty then '$' :: expandBraceGo env fuel ('{' :: rest)
      else (env (String.mk name)).toList ++ expandBraceGo env fuel rest'
    | _ => '$' :: expandBraceGo env fuel ('{' :: rest)
  | fuel + 1, c :: rest => c :: expandBraceGo env fuel rest

/-- The `${NAME}` pass over a whole list. -/
def expandBracePass (env : String → String) (l : List Char) : List Char :=
  expandBraceGo env l.length l

/-- Second pass of `expandEnvVars`: `re2.ReplaceAllStringFunc` for
`\$([A-Za-z_][A-Za-z0-9_]*)`: at `$` followed by a word-start character,
the maximal run of word characters is the variable name and `$NAME` is
replaced by `env NAME`. `fuel` bounds the scan as for
`expandBraceGo`. -/
def expandDollarGo (env : String → String) : Nat → List Char → List Char
  | 0, l => l
  | _ + 1, [] => []
  | _ + 1, ['$'] => ['$']
  | fuel + 1, '$' :: c :: rest =>
    if isWordStart c then
      let name := (c :: rest).takeWhile isWordChar
      (env (String.mk name)).toList ++ expandDollarGo env fuel ((c :: rest).dropWhile isWordChar)
    else
      '$' :: expandDollarGo env fuel (c :: rest)
  | fuel + 1, c :: rest => c :: expandDollarGo env fuel rest

/-- The `$NAME` pass over a whole list. -/
def expandDollarPass (env : String → String) (l : List Char) : List Char :=
  expandDollarGo env l.length l

/-- `expandEnvVars` from config.go: the `${NAME}` pass over the raw text,
then the `$NAME` pass over the *result* of the first pass. `env` stands
for `os.Getenv` (total, returning `""` for unset variables). -/
def expandEnvVars (env : String → String) (content : String) : String :=
  String.mk (expandDollarPass env (expandBracePass env content.toList))

/-- `true` iff the characters form a name matching
`[A-Za-z_][A-Za-z0-9_]*`. -/
def isIdentName (l : List Char) : Bool :=
  match l with
  | [] => false
  | c :: cs => isWordStart c && cs.all isWordChar

/-- Modelled from the spec: a single left-to-right pass replacing exactly
the occurrences of `${NAME}` and `$NAME` whose NAME matches
`[A-Za-z_][A-Za-z0-9_]*` with `env NAME`, and rewriting nothing else.
`fuel` bounds the scan as for `expandBraceGo`. -/
def specExpandGo (env : String → String) : Nat → List Char → List Char
  | 0, l => l
  | _ + 1, [] => []
  | fuel + 1, '$' :: '{' :: rest =>
    match rest.dropWhile (· ≠ '}') with
    | '}' :: rest' =>
      let name := rest.takeWhile (· ≠ '}')
      if isIdentName name then (env (String.mk name)).toList ++ specExpandGo env fuel rest'
      else '$' :: specExpandGo env fuel ('{' :: rest)
    | _ => '$' :: specExpandGo env fuel ('{' :: rest)
  | fuel + 1, '$' :: c :: rest =>
    if isWordStart c then
      let name := (c :: rest).takeWhile isWordChar
      (env (String.mk name)).toList ++ specExpandGo env fuel ((c :: rest).dropWhile isWordChar)
    else
      '$' :: specExpandGo env fuel (c :: rest)
  | fuel + 1, c :: rest => c :: specExpandGo env fuel rest

/-- Modelled from the spec: `expandEnvVars` as the specification words it. -/
def specExpandEnvVars (env : String → String) (content : String) : String :=
  String.mk (specExpandGo env content.toList.length content.toList)

/-! ## Deploy service (the deploy service source file) -/

/-- `DeployResult` from the deploy source (`Duration`, a wall-clock string,
is not modelled). -/
structure DeployResult where
  repoName : String
  clonePath : String
  commandsRun : List String
  success : Bool
  error : String
deriving Repr, DecidableEq

/-- Outcome of running one shell command (`cmd.CombinedOutput()`):
combined output on exit 0, or error text plus combined output on a
nonzero exit / timeout. -/
inductive CmdOutcome where
  | ok (output : String)
  | fail (err output : String)
deriving Repr, DecidableEq

/-- The command loop of `executeDeploymentCommands` starting at step index
`i`: each command is run, then recorded in `CommandsRun` (the record is
appended after `CombinedOutput` returns but before the error check, so a
failing command is recorded too), and the first failure stops the loop
with the step-numbered error. Returns the recorded commands and the
error, if any. -/
def execCommandsFrom (run : Nat → CmdOutcome) : Nat → List String → List String × Option String
  | _, [] => ([], none)
  | i, cmd :: rest =>
    match run i with
    | .ok _ =>
      let r := execCommandsFrom run (i + 1) rest
      (cmd :: r.1, r.2)
    | .fail e out =>
      ([cmd],
       some ("command failed (step " ++ toString (i + 1) ++ "): " ++ cmd ++
             ", error: " ++ e ++ ", output: " ++ out))

/-- `executeDeploymentCommands` from the deploy source, with the shell
abstracted as `run` (outcome of the command at each step index). -/
def executeDeploymentCommands (commands : List String) (run : Nat → CmdOutcome) :
    List String × Option String :=
  execCommandsFrom run 0 commands

/-- The index of the first failing command under `run`, among the first
`n` commands. -/
def firstFailIndex (run : Nat → CmdOutcome) : Nat → Nat → Option Nat
  | _, 0 => none
  | i, n + 1 =>
    match run i with
    | .ok _ => firstFailIndex run (i + 1) n
    | .fail _ _ => some i

/-- The external effects one `deployRepository` invocation can observe:
the result of `createTempDirectory`, of the `git clone` subprocess, and of
each shell command. -/
structure DeployEffects where
  tmpDir : Except String String
  clone : Except String Unit
  command : Nat → CmdOutcome

/-- An outer context deadline, in seconds from dispatch: `none` models
`context.Background()` (no deadline), `some t` models
`context.WithTimeout(t seconds)`. -/
abbrev Ctx := Option Int

/-- The per-command timeout installed by `executeDeploymentCommands`
(`context.WithTimeout(ctx, 5*time.Minute)`): 5 minutes, capped by the
remaining outer deadline (elapsed time within the task is not modelled,
so the cap uses the full outer budget). -/
def perCommandBudget : Ctx → Int
  | none => 300
  | some d => min d 300

/-- The sequence of per-command timeout budgets a deployment of
`repoName` installs under outer context `ctx`: one per declared command. -/
def deployCommandTimeouts (cfg : Config) (repoName : String) (ctx : Ctx) : List Int :=
  match cfg.repositories.find? (fun r => r.name = repoName) with
  | none => []
  | some repo => repo.deploy.commands.map (fun _ => perCommandBudget ctx)

/-- `deployRepository` from the deploy source: resolve the repository
configuration (first match by name), create the workspace, clone the QA
repository (failing fast on an unsupported repository type), then run the
recipe. The first failure short-circuits into a `success = false` result;
`ClonePath` is recorded as soon as the workspace exists. Cleanup (the
deferred `cleanupTempDirectory`) has no effect on the returned result and
is not modelled. -/
def deployRepository (cfg : Config) (repoName : String) (fx : DeployEffects)
    (ctx : Ctx) : DeployResult :=
  match cfg.repositories.find? (fun r => r.name = repoName) with
  | none =>
    ⟨repoName, "", [], false, "repository configuration not found: " ++ repoName⟩
  | some repo =>
    match fx.tmpDir with
    | .error e => ⟨repoName, "", [], false, "failed to create temp directory: " ++ e⟩
    | .ok dir =>
      let cloneRes : Except String Unit :=
        if repo.deploy.repoType = "github" ∨ repo.deploy.repoType = "gitlab" ∨
            repo.deploy.repoType = "gitea" then
          fx.clone
        else
          .error ("unsupported repository type: " ++ repo.deploy.repoType)
      match cloneRes with
      | .error e => ⟨repoName, dir, [], false, "failed to clone QA repository: " ++ e⟩
      | .ok _ =>
        let r := executeDeploymentCommands repo.deploy.commands fx.command
        match r.2 with
        | some e => ⟨repoName, dir, r.1, false, "failed to execute commands: " ++ e⟩
        | none => ⟨repoName, dir, r.1, true, ""⟩

/-- The context `DeployIndividual` passes to `deployRepository`:
`ctx := context.Background()` — no deadline, whatever
`GlobalSettings.timeout` says. -/
def deployIndividualCtx : Ctx := none

/-- `DeployIndividual` from the deploy source: deploy under
`context.Background()` and turn an unsuccessful result into the
`deployment failed:` error. -/
def deployIndividual (cfg : Config) (repoName : String) (fx : DeployEffects) :
    DeployResult × Option String :=
  let r := deployRepository cfg repoName fx deployIndividualCtx
  (r, if r.success then none else some ("deployment failed: " ++ r.error))

/-- Modelled from the spec: the outer deadline the specification assigns
to an individual deployment — `now + GlobalSettings.timeout`, or no
deadline when that timeout is unset (Go zero value). -/
def specIndividualOuterDeadline (cfg : Config) : Ctx :=
  if cfg.global.timeout ≠ 0 then some cfg.global.timeout else none

/-- Go map write into a `GroupDeployResult.Results`-style map. -/
def insertResult (l : List (String × DeployResult)) (k : String) (v : DeployResult) :
    List (String × DeployResult) :=
  insertAssoc l k v

/-- The loop of `deployGroupSequential`, with the member deployment
abstracted as `deployFn` (i.e. `d.deployRepository(rn, ctx)` with the
group context fixed) and the post-member `ctx.Done()` poll abstracted as
`timedOutAfter k` (whether the group deadline has elapsed when member
index `k` finishes). Members are deployed in declaration order; a failed
member stops the loop with its error unless `continue_on_error` is set,
in which case the loop merely logs and continues — no aggregate error is
accumulated. -/
def seqLoop (g : GroupConfig) (deployFn : String → DeployResult)
    (timedOutAfter : Nat → Bool) :
    Nat → List (String × DeployResult) → List String →
      List (String × DeployResult) × Option String
  | _, acc, [] => (acc, none)
  | k, acc, rn :: rest =>
    let res := deployFn rn
    let acc' := insertResult acc rn res
    if ¬res.success ∧ ¬g.continueOnError then
      (acc', some ("deployment failed for " ++ rn ++ ": " ++ res.error))
    else if timedOutAfter k then
      (acc', some "deployment timeout reached")
    else
      seqLoop g deployFn timedOutAfter (k + 1) acc' rest

/-- `deployGroupSequential` from the deploy source: run the member loop
from the first member with an empty Results map. -/
def deployGroupSequential (repoNames : List String) (g : GroupConfig)
    (deployFn : String → DeployResult) (timedOutAfter : Nat → Bool) :
    List (String × DeployResult) × Option String :=
  seqLoop g deployFn timedOutAfter 0 [] repoNames

/-- `deployGroupParallel` from the deploy source, restricted to executions
in which the group deadline never fires (so every goroutine acquires a
semaphore slot and deploys its member — the `ctx.Done()` admission branch
is never taken, and `firstError` plays no part in admission). `order` is
the order in which member goroutines complete and take the result mutex
(scheduling-dependent; any permutation of `repoNames`). The Results map
is filled in completion order; when `continue_on_error` is unset the
first failure in completion order becomes the returned error; otherwise
all failures are aggregated from the Results map. -/
def deployGroupParallel (repoNames : List String) (g : GroupConfig)
    (deployFn : String → DeployResult) (order : List String) :
    List (String × DeployResult) × Option String :=
  let results := order.foldl (fun acc rn => insertResult acc rn (deployFn rn)) []
  let firstError : Option String :=
    if g.continueOnError then none
    else
      (order.find? (fun rn => ¬(deployFn rn).success)).map
        (fun rn => "deployment failed for " ++ rn ++ ": " ++ (deployFn rn).error)
  if ¬g.continueOnError ∧ firstError.isSome then
    (results, firstError)
  else
    let failures := (results.filter (fun p => ¬p.2.success)).map
      (fun p => p.1 ++ ": " ++ p.2.error)
    if failures.isEmpty then (results, none)
    else (results, some ("deployment failures: " ++ String.intercalate "; " failures))

/-- `DeployGroup` from the deploy source: select the strategy
(`"parallel"` runs the parallel path, anything else the sequential path),
and report `Success = (err == nil)`. -/
def deployGroup (repoNames : List String) (g : GroupConfig)
    (deployFn : String → DeployResult) (order : List String)
    (timedOutAfter : Nat → Bool) :
    (List (String × DeployResult) × Option String) × Bool :=
  let r :=
    if g.executionStrategy = "parallel" then
      deployGroupParallel repoNames g deployFn order
    else
      deployGroupSequential repoNames g deployFn timedOutAfter
  (r, r.2.isNone)

/-- `true` iff a command outcome is a success. -/
def cmdOk : CmdOutcome → Bool
  | .ok _ => true
  | .fail _ _ => false

/-- The step-numbered error text `executeDeploymentCommands` produces for
a failing command at absolute step index `idx`. -/
def cmdFailMsg (idx : Nat) (cmd : String) : CmdOutcome → Option String
  | .ok _ => none
  | .fail e out =>
    some ("command failed (step " ++ toString (idx + 1) ++ "): " ++ cmd ++
          ", error: " ++ e ++ ", output: " ++ out)

/-! ## Fixtures and auxiliary predicates used by the theorems -/

/-- A deployment stub in which every member fails with error `boom`. -/
def allFailFn : String → DeployResult :=
  fun rn => ⟨rn, "/ws", [], false, "boom"⟩

/-- A deployment stub in which `r1` fails and every other member
succeeds. -/
def r1FailFn : String → DeployResult :=
  fun rn =>
    if rn = "r1" then ⟨rn, "/ws", [], false, "boom"⟩
    else ⟨rn, "/ws", ["echo ok"], true, ""⟩

/-- A platform stub: the first request gets HTTP 503 with a response body
that happens to contain the text `status 4`; every later request would
succeed. -/
def status4BodyAttempts : Nat → AttemptResult :=
  fun n =>
    if n = 0 then .httpError 503 "upstream replied: status 418 teapot"
    else .ok ⟨"ffffffff", "m", "a", 0, "u"⟩

/-- A platform stub that always answers HTTP 404. -/
def notFoundAttempts : Nat → AttemptResult :=
  fun _ => .httpError 404 "Not Found"

/-- A platform stub that always answers HTTP 503. -/
def unavailableAttempts : Nat → AttemptResult :=
  fun _ => .httpError 503 "Service Unavailable"

/-- Fixture: an authentication block. -/
def testAuth : AuthConfig := ⟨"user", "token"⟩

/-- Fixture: a deploy block with one command. -/
def testDeploy : DeployConfig :=
  ⟨"https://github.com/o/qa", "main", "github", testAuth, "proj", ["kubectl apply -f ."]⟩

/-- Fixture: a repository named `n` in group `g` monitoring branches `bs`. -/
def mkRepo (n g : String) (bs : List String) : RepositoryConfig :=
  ⟨n, g, ⟨"https://github.com/o/" ++ n, bs, "github", testAuth⟩, testDeploy⟩

/-- Fixture: a configuration with one ungrouped repository and
`global.timeout = 50`. -/
def timeoutConfig : Config :=
  ⟨60, [], [mkRepo "r1" "" ["main"]], ⟨"/tmp/sentry", true, "info", 50⟩⟩

/-- Fixture: effects for a deployment in which everything succeeds. -/
def okEffects : DeployEffects :=
  ⟨.ok "/tmp/sentry/sentry-r1-1", .ok (), fun _ => .ok ""⟩

/-- A commit observation with an 8-byte fingerprint `sha`. -/
def mkCommit (sha : String) : CommitInfo := ⟨sha, "msg", "author", 0, "url"⟩

/-- Every entry of the SeenMap is the fingerprint `commit` assigns to some
configured (repo, branch) pair whose cache key it carries. This is the
invariant the scan of a tick preserves. -/
def seenConsistent (cfg : Config) (commit : String → String → CommitInfo)
    (seen : SeenMap) : Prop :=
  ∀ k v, lookupSeen seen k = some v →
    ∃ r, r ∈ cfg.repositories ∧ ∃ b, b ∈ r.monitor.branches ∧
      k = r.name ++ ":" ++ b ∧ v = (commit r.name b).sha

/-- The configured (repo name, branch) pairs of a configuration, in probe
order. -/
def configPairs (cfg : Config) : List (String × String) :=
  cfg.repositories.flatMap (fun r => r.monitor.branches.map (fun b => (r.name, b)))

/-- Install the fingerprint `commit` assigns to a (repo name, branch) pair
under the pair's cache key. One step of the SeenMap growth of a
first tick. -/
def recordPair (commit : String → String → CommitInfo) (s : SeenMap)
    (p : String × String) : SeenMap :=
  insertSeen s (p.1 ++ ":" ++ p.2) (commit p.1 p.2).sha

/-- Fixture: two ungrouped repositories named `a` and `a:b` whose
(name, branch) pairs are distinct but collide on the cache key
`a:b:c`. -/
def collisionConfig : Config :=
  ⟨60, [], [mkRepo "a" "" ["b:c"], mkRepo "a:b" "" ["c"]], ⟨"/tmp/sentry", true, "info", 0⟩⟩

/-- Fixture: a fetch for `collisionConfig` answering a different valid
fingerprint per repository. -/
def collisionFetch : String → String → Except String CommitInfo :=
  fun n _ => if n = "a" then .ok (mkCommit "aaaaaaaa") else .ok (mkCommit "bbbbbbbb")

/-- Fixture: a two-member group `G` (repositories `r1`, `r2`, one branch
`main` each). -/
def groupConfig2 : Config :=
  ⟨60, [("G", ⟨"parallel", 2, true, 600⟩)],
   [mkRepo "r1" "G" ["main"], mkRepo "r2" "G" ["main"]],
   ⟨"/tmp/sentry", true, "info", 0⟩⟩

/-- Fixture: a fetch for `groupConfig2` reporting fresh fingerprints for
both members. -/
def groupFetch2 : String → String → Except String CommitInfo :=
  fun n _ => if n = "r1" then .ok (mkCommit "cccccccc") else .ok (mkCommit "dddddddd")

/-- Fixture: the SeenMap of `groupConfig2` before the tick, holding the
previous fingerprints of both members. -/
def groupSeen2 : SeenMap :=
  [("r1:main", "aaaaaaaa"), ("r2:main", "bbbbbbbb")]

/-- Fixture: one repository `r` with two branches; the fetch fails on
branch `b1` and would succeed on branch `b2`. -/
def twoBranchConfig : Config :=
  ⟨60, [], [mkRepo "r" "" ["b1", "b2"]], ⟨"/tmp/sentry", true, "info", 0⟩⟩

/-- Fixture: fetch for `twoBranchConfig`: branch `b1` errors, any other
branch returns a valid commit. -/
def twoBranchFetch : String → String → Except String CommitInfo :=
  fun _ b => if b = "b1" then .error "HTTP request failed: timeout" else .ok (mkCommit "aaaaaaaa")

/-! ## Theorems -/

theorem execCommandsFrom_all_ok (run : Nat → CmdOutcome) :
    ∀ (cmds : List String) (i : Nat), (∀ j, j < cmds.length → cmdOk (run (i + j))) →
      execCommandsFrom run i cmds = (cmds, none) := by
  intro cmds
  induction cmds with
  | nil => intro i _; rfl
  | cons c rest ih =>
    intro i h
    have h0 : cmdOk (run (i + 0)) := h 0 (by simp)
    cases hr : run i with
    | fail e out => rw [Nat.add_zero] at h0; rw [hr] at h0; simp [cmdOk] at h0
    | ok out =>
      have hrest : ∀ j, j < rest.length → cmdOk (run (i + 1 + j)) := by
        intro j hj
        have := h (j + 1) (by simp only [List.length_cons]; omega)
        have e : i + (j + 1) = i + 1 + j := by omega
        rwa [e] at this
      simp only [execCommandsFrom, hr, ih (i + 1) hrest]

theorem firstFailIndex_none_iff (run : Nat → CmdOutcome) :
    ∀ (n i : Nat), firstFailIndex run i n = none ↔ ∀ j, j < n → cmdOk (run (i + j)) := by
  intro n
  induction n with
  | zero => intro i; simp [firstFailIndex]
  | succ n ih =>
    intro i
    cases hr : run i with
    | fail e out =>
      simp only [firstFailIndex, hr]
      constructor
      · intro h; exact absurd h (by simp)
      · intro h
        have h0 := h 0 (by omega)
        rw [Nat.add_zero, hr] at h0
        simp [cmdOk] at h0
    | ok out =>
      simp only [firstFailIndex, hr]
      rw [ih (i + 1)]
      constructor
      · intro h j hj
        match j with
        | 0 => rw [Nat.add_zero, hr]; rfl
        | j + 1 =>
          have e : i + (j + 1) = i + 1 + j := by omega
          rw [e]; exact h j (by omega)
      · intro h j hj
        have := h (j + 1) (by omega)
        have e : i + (j + 1) = i + 1 + j := by omega
        rwa [e] at this

theorem firstFailIndex_some_spec (run : Nat → CmdOutcome) :
    ∀ (n i k : Nat), firstFailIndex run i n = some k →
      i ≤ k ∧ k < i + n ∧ ¬cmdOk (run k) ∧ ∀ j, i ≤ j → j < k → cmdOk (run j) := by
  intro n
  induction n with
  | zero => intro i k h; simp [firstFailIndex] at h
  | succ n ih =>
    intro i k h
    cases hr : run i with
    | fail e out =>
      simp only [firstFailIndex, hr] at h
      cases h
      refine ⟨le_refl _, by omega, by rw [hr]; simp [cmdOk], ?_⟩
      intro j h1 h2; omega
    | ok out =>
      simp only [firstFailIndex, hr] at h
      obtain ⟨h1, h2, h3, h4⟩ := ih (i + 1) k h
      refine ⟨by omega, by omega, h3, ?_⟩
      intro j hj1 hj2
      rcases Nat.eq_or_lt_of_le hj1 with he | hl
      · rw [← he, hr]; rfl
      · exact h4 j (by omega) hj2

theorem execCommandsFrom_first_fail (run : Nat → CmdOutcome) :
    ∀ (cmds : List String) (i k : Nat) (hk : k < cmds.length),
      ¬cmdOk (run (i + k)) → (∀ j, j < k → cmdOk (run (i + j))) →
      execCommandsFrom run i cmds =
        (cmds.take (k + 1), cmdFailMsg (i + k) (cmds.get ⟨k, hk⟩) (run (i + k))) := by
  intro cmds
  induction cmds with
  | nil => intro i k hk; simp at hk
  | cons c rest ih =>
    intro i k hk hfail hpre
    match k with
    | 0 =>
      cases hr : run i with
      | ok out => rw [Nat.add_zero, hr] at hfail; simp [cmdOk] at hfail
      | fail e out =>
        simp only [Nat.add_zero, execCommandsFrom, hr, List.take, List.get, cmdFailMsg]
    | k + 1 =>
      have h0 : cmdOk (run (i + 0)) := hpre 0 (by omega)
      rw [Nat.add_zero] at h0
      cases hr : run i with
      | fail e out => rw [hr] at h0; simp [cmdOk] at h0
      | ok out =>
        have hrk : i + (k + 1) = i + 1 + k := by omega
        have hfail' : ¬cmdOk (run (i + 1 + k)) := by rwa [hrk] at hfail
        have hpre' : ∀ j, j < k → cmdOk (run (i + 1 + j)) := by
          intro j hj
          have := hpre (j + 1) (by omega)
          have e : i + (j + 1) = i + 1 + j := by omega
          rwa [e] at this
        have hk' : k < rest.length := by simp only [List.length_cons] at hk; omega
        simp only [execCommandsFrom, hr, ih (i + 1) k hk' hfail' hpre', List.take, List.get]
        rw [hrk]

/-- C8: in a deployment whose commands all succeed, the recipe commands
are executed in declaration order and `commands_run` lists exactly the
declared sequence with no error; when a command fails, `commands_run`
lists exactly the prefix of the declared commands up to and including the
first failing one, an error is reported, and no command after the failing
one is executed (the result does not depend on the outcomes of any later
step). -/
theorem deploy_command_ordering (commands : List String) (run : Nat → CmdOutcome) :
    (firstFailIndex run 0 commands.length = none →
      executeDeploymentCommands commands run = (commands, none)) ∧
    (∀ i, firstFailIndex run 0 commands.length = some i →
      (executeDeploymentCommands commands run).1 = commands.take (i + 1) ∧
      (executeDeploymentCommands commands run).2.isSome ∧
      (∀ run' : Nat → CmdOutcome, (∀ j, j ≤ i → run' j = run j) →
        executeDeploymentCommands commands run' = executeDeploymentCommands commands run)) := by
  constructor
  · intro h
    have := (firstFailIndex_none_iff run commands.length 0).mp h
    exact execCommandsFrom_all_ok run commands 0 (by intro j hj; exact this j hj)
  · intro i h
    obtain ⟨_, h2, h3, h4⟩ := firstFailIndex_some_spec run commands.length 0 i h
    have hk : i < commands.length := by omega
    have hfail : ¬cmdOk (run (0 + i)) := by rwa [Nat.zero_add]
    have hpre : ∀ j, j < i → cmdOk (run (0 + j)) := by
      intro j hj; rw [Nat.zero_add]; exact h4 j (by omega) hj
    have he := execCommandsFrom_first_fail run commands 0 i hk hfail hpre
    rw [Nat.zero_add] at he
    refine ⟨by rw [executeDeploymentCommands, he], ?_, ?_⟩
    · rw [executeDeploymentCommands, he]
      cases hr : run i with
      | ok out => rw [hr] at h3; simp [cmdOk] at h3
      | fail e out => simp [cmdFailMsg]
    · intro run' hagree
      have hfail' : ¬cmdOk (run' (0 + i)) := by
        rw [Nat.zero_add, hagree i (le_refl i)]
        exact h3
      have hpre' : ∀ j, j < i → cmdOk (run' (0 + j)) := by
        intro j hj
        rw [Nat.zero_add, hagree j (by omega)]
        exact h4 j (by omega) hj
      have he' := execCommandsFrom_first_fail run' commands 0 i hk hfail' hpre'
      rw [Nat.zero_add] at he'
      simp only [executeDeploymentCommands]
      rw [he, he', hagree i (le_refl i)]

/-- Witness for `deploy_command_ordering`: a three-command recipe whose
second command fails records exactly the first two commands, and the
outcome of the (never-executed) third command is irrelevant. -/
theorem deploy_command_ordering_witness :
    firstFailIndex (fun j => if j = 1 then .fail "exit 1" "" else .ok "") 0
      (["a", "b", "c"] : List String).length = some 1 ∧
    (executeDeploymentCommands ["a", "b", "c"]
      (fun j => if j = 1 then .fail "exit 1" "" else .ok "")).1 = ["a", "b"] := by
  refine ⟨by decide, ?_⟩
  have h := (deploy_command_ordering ["a", "b", "c"]
    (fun j => if j = 1 then .fail "exit 1" "" else .ok "")).2 1 (by decide)
  exact h.1

theorem lookup_insertAssoc {α : Type} (l : List (String × α)) (k q : String) (v : α) :
    lookupAssoc (insertAssoc l k v) q = if q = k then some v else lookupAssoc l q := by
  induction l with
  | nil =>
    simp only [insertAssoc, lookupAssoc]
    by_cases h : k = q
    · subst h; simp
    · have h2 : ¬q = k := fun hh => h hh.symm
      simp [h, h2]
  | cons p rest ih =>
    obtain ⟨a, b⟩ := p
    simp only [insertAssoc]
    by_cases ha : a = k
    · subst ha
      rw [if_pos rfl]
      simp only [lookupAssoc]
      by_cases h : a = q
      · subst h; simp
      · have h2 : ¬q = a := fun hh => h hh.symm
        simp [h, h2]
    · rw [if_neg ha]
      simp only [lookupAssoc]
      by_cases h : a = q
      · subst h
        simp [ha]
      · simp [h, ih]

theorem mem_insertAssoc {α : Type} (l : List (String × α)) (k : String) (v : α) :
    ∀ p ∈ insertAssoc l k v, p = (k, v) ∨ p ∈ l := by
  induction l with
  | nil => intro p hp; simp [insertAssoc] at hp; left; exact hp
  | cons q rest ih =>
    obtain ⟨a, b⟩ := q
    intro p hp
    simp only [insertAssoc] at hp
    by_cases ha : a = k
    · subst ha
      rw [if_pos rfl] at hp
      rcases List.mem_cons.mp hp with h | h
      · left; exact h
      · right; exact List.mem_cons.mpr (Or.inr h)
    · rw [if_neg ha] at hp
      rcases List.mem_cons.mp hp with h | h
      · right; exact List.mem_cons.mpr (Or.inl h)
      · rcases ih p h with h' | h'
        · left; exact h'
        · right; exact List.mem_cons.mpr (Or.inr h')

theorem lookupAssoc_mem {α : Type} (l : List (String × α)) (k : String) (v : α) :
    lookupAssoc l k = some v → (k, v) ∈ l := by
  induction l with
  | nil => intro h; simp [lookupAssoc] at h
  | cons p rest ih =>
    obtain ⟨a, b⟩ := p
    intro h
    simp only [lookupAssoc] at h
    by_cases ha : a = k
    · subst ha
      rw [if_pos rfl] at h
      cases h
      exact List.mem_cons_self _ _
    · rw [if_neg ha] at h
      exact List.mem_cons.mpr (Or.inr (ih h))

/-- Lookup in a Results map built by folding Go map writes of
`(rn, f rn)` over a completion order. -/
theorem lookup_foldl_insert (f : String → DeployResult) :
    ∀ (order : List String) (acc : List (String × DeployResult)) (rn : String),
      lookupAssoc (order.foldl (fun a r => insertResult a r (f r)) acc) rn =
        if rn ∈ order then some (f rn) else lookupAssoc acc rn := by
  intro order
  induction order with
  | nil => intro acc rn; simp
  | cons r os ih =>
    intro acc rn
    simp only [List.foldl_cons]
    rw [ih]
    by_cases h1 : rn ∈ os
    · simp [h1, List.mem_cons]
    · rw [if_neg h1, insertResult, lookup_insertAssoc]
      by_cases h2 : rn = r
      · subst h2; simp [h1]
      · simp [h1, h2, List.mem_cons]

/-- Every entry of a Results map built by folding Go map writes of
`(rn, f rn)` carries the deployment result of its own key. -/
theorem mem_foldl_insert (f : String → DeployResult) :
    ∀ (order : List String) (acc : List (String × DeployResult)),
      (∀ p ∈ acc, p.2 = f p.1) →
      ∀ p ∈ order.foldl (fun a r => insertResult a r (f r)) acc, p.2 = f p.1 := by
  intro order
  induction order with
  | nil => intro acc h p hp; exact h p hp
  | cons r os ih =>
    intro acc h p hp
    simp only [List.foldl_cons] at hp
    refine ih (insertResult acc r (f r)) ?_ p hp
    intro q hq
    rcases mem_insertAssoc acc r (f r) q hq with h' | h'
    · rw [h']
    · exact h q h'

/-- Every key of a Results map built by folding Go map writes over a
completion order comes from that order (or from the initial map). -/
theorem mem_keys_foldl_insert (f : String → DeployResult) :
    ∀ (order : List String) (acc : List (String × DeployResult)),
      ∀ p ∈ order.foldl (fun a r => insertResult a r (f r)) acc, p.1 ∈ order ∨ p ∈ acc := by
  intro order
  induction order with
  | nil => intro acc p hp; right; exact hp
  | cons r os ih =>
    intro acc p hp
    simp only [List.foldl_cons] at hp
    rcases ih (insertResult acc r (f r)) p hp with h | h
    · left; exact List.mem_cons.mpr (Or.inr h)
    · rcases mem_insertAssoc acc r (f r) p h with h' | h'
      · left; rw [h']; exact List.mem_cons_self _ _
      · right; exact h'

/-- When `continue_on_error` is set and the group deadline never fires,
the sequential loop visits every remaining member and returns no error. -/
theorem seqLoop_continue_on_error (g : GroupConfig) (deployFn : String → DeployResult)
    (hce : g.continueOnError = true) :
    ∀ (names : List String) (k : Nat) (acc : List (String × DeployResult)),
      seqLoop g deployFn (fun _ => false) k acc names =
        (names.foldl (fun a r => insertResult a r (deployFn r)) acc, none) := by
  intro names
  induction names with
  | nil => intro k acc; rfl
  | cons rn rest ih =>
    intro k acc
    simp only [seqLoop, hce, not_true, and_false, if_false, List.foldl_cons]
    exact ih (k + 1) (insertResult acc rn (deployFn rn))

/-- C2 (amended): with `continue_on_error = true` and the group deadline
not firing, the parallel strategy attempts every member, reports
aggregate success exactly when every member succeeded, and on failure
returns an error listing every failing member with its error text; the
sequential strategy attempts every member but always returns a nil error
and aggregate success `true`, regardless of member failures. -/
theorem group_continue_on_error (g gs : GroupConfig) (repoNames order : List String)
    (deployFn : String → DeployResult)
    (hpar : g.executionStrategy = "parallel") (hce : g.continueOnError = true)
    (hperm : order.Perm repoNames)
    (hseq : gs.executionStrategy ≠ "parallel") (hces : gs.continueOnError = true) :
    (∀ rn ∈ repoNames,
      lookupAssoc (deployGroup repoNames g deployFn order (fun _ => false)).1.1 rn =
        some (deployFn rn)) ∧
    ((deployGroup repoNames g deployFn order (fun _ => false)).2 = true ↔
      ∀ rn ∈ repoNames, (deployFn rn).success) ∧
    (∀ e, (deployGroup repoNames g deployFn order (fun _ => false)).1.2 = some e →
      ∃ fs, e = "deployment failures: " ++ String.intercalate "; " fs ∧
        ∀ rn ∈ repoNames, ¬(deployFn rn).success →
          (rn ++ ": " ++ (deployFn rn).error) ∈ fs) ∧
    ((deployGroup repoNames gs deployFn order (fun _ => false)).1 =
      (repoNames.foldl (fun a r => insertResult a r (deployFn r)) [], none) ∧
     (deployGroup repoNames gs deployFn order (fun _ => false)).2 = true) := by
  have hgp : deployGroup repoNames g deployFn order (fun _ => false) =
      (deployGroupParallel repoNames g deployFn order,
       (deployGroupParallel repoNames g deployFn order).2.isNone) := by
    simp [deployGroup, hpar]
  have hgs : deployGroup repoNames gs deployFn order (fun _ => false) =
      (deployGroupSequential repoNames gs deployFn (fun _ => false),
       (deployGroupSequential repoNames gs deployFn (fun _ => false)).2.isNone) := by
    simp [deployGroup, hseq]
  have hpe : deployGroupParallel repoNames g deployFn order =
      (let results := order.foldl (fun acc rn => insertResult acc rn (deployFn rn)) []
       let failures := (results.filter (fun p => ¬p.2.success)).map
         (fun p => p.1 ++ ": " ++ p.2.error)
       if failures.isEmpty then (results, none)
       else (results, some ("deployment failures: " ++ String.intercalate "; " failures))) := by
    simp [deployGroupParallel, hce]
  set results := order.foldl (fun acc rn => insertResult acc rn (deployFn rn)) [] with hres
  set failures := (results.filter (fun p => ¬p.2.success)).map
    (fun p => p.1 ++ ": " ++ p.2.error) with hfl
  have hlook : ∀ rn ∈ repoNames, lookupAssoc results rn = some (deployFn rn) := by
    intro rn hrn
    rw [hres, lookup_foldl_insert]
    rw [if_pos (hperm.mem_iff.mpr hrn)]
  have hresults1 : (deployGroupParallel repoNames g deployFn order).1 = results := by
    rw [hpe]; by_cases h : failures.isEmpty <;> simp only [← hfl, ← hres, h] <;> simp [h]
  have hfail_iff : failures = [] ↔ ∀ rn ∈ repoNames, (deployFn rn).success := by
    constructor
    · intro h rn hrn
      have hmem : (rn, deployFn rn) ∈ results := lookupAssoc_mem _ _ _ (hlook rn hrn)
      by_contra hns
      have : (rn, deployFn rn) ∈ results.filter (fun p => ¬p.2.success) :=
        List.mem_filter.mpr ⟨hmem, by simp [hns]⟩
      have : (rn ++ ": " ++ (deployFn rn).error) ∈ failures := by
        rw [hfl]
        exact List.mem_map.mpr ⟨(rn, deployFn rn), this, rfl⟩
      rw [h] at this
      simp at this
    · intro h
      rw [hfl]
      have : results.filter (fun p => ¬p.2.success) = [] := by
        rw [List.filter_eq_nil_iff]
        intro p hp
        have h2 := mem_foldl_insert deployFn order [] (by simp) p hp
        have h3 := mem_keys_foldl_insert deployFn order [] p hp
        rcases h3 with h3 | h3
        · have := h p.1 (hperm.mem_iff.mp h3)
          rw [h2]
          simp [this]
        · simp at h3
      rw [this]
      rfl
  have herr_none : (deployGroupParallel repoNames g deployFn order).2 = none ↔
      failures = [] := by
    rw [hpe]
    by_cases h : failures.isEmpty
    · have := List.isEmpty_iff.mp h
      simp only [← hfl, ← hres, h]
      simp [h, this]
    · have : ¬failures = [] := fun hh => h (by rw [hh]; rfl)
      simp only [← hfl, ← hres]
      simp [h, this]
  refine ⟨?_, ?_, ?_, ?_⟩
  · intro rn hrn
    rw [hgp]
    simp only []
    rw [hresults1]
    exact hlook rn hrn
  · rw [hgp]
    simp only [Option.isNone_iff_eq_none]
    rw [herr_none, hfail_iff]
  · intro e he
    rw [hgp] at he
    simp only [] at he
    rw [hpe] at he
    by_cases h : failures.isEmpty
    · simp only [← hfl, ← hres, h] at he
      simp [h] at he
    · simp only [← hfl, ← hres] at he
      simp [h] at he
      refine ⟨failures, he.symm, ?_⟩
      intro rn hrn hns
      have hmem : (rn, deployFn rn) ∈ results := lookupAssoc_mem _ _ _ (hlook rn hrn)
      have : (rn, deployFn rn) ∈ results.filter (fun p => ¬p.2.success) :=
        List.mem_filter.mpr ⟨hmem, by simp [hns]⟩
      rw [hfl]
      exact List.mem_map.mpr ⟨(rn, deployFn rn), this, rfl⟩
  · rw [hgs]
    simp only []
    rw [deployGroupSequential, seqLoop_continue_on_error gs deployFn hces]
    exact ⟨rfl, rfl⟩

/-- Counterexample to C2 as stated: a sequential group with
`continue_on_error = true` whose only member fails still returns a nil
error and aggregate success `true`, so the aggregate success is not the
conjunction of member successes and no error names the failing member. -/
theorem group_continue_on_error_seq_counterexample :
    (deployGroup ["r1"] ⟨"sequential", 1, true, 600⟩ allFailFn ["r1"] (fun _ => false)).1.2
        = none ∧
    (deployGroup ["r1"] ⟨"sequential", 1, true, 600⟩ allFailFn ["r1"] (fun _ => false)).2
        = true ∧
    (allFailFn "r1").success = false := by
  exact ⟨rfl, rfl, rfl⟩

/-- Witness for `group_continue_on_error` at a two-member group. -/
theorem group_continue_on_error_witness :
    ((("parallel" : String) = "parallel") ∧ (["r2", "r1"] : List String).Perm ["r1", "r2"]) ∧
    ((deployGroup ["r1", "r2"] ⟨"parallel", 2, true, 600⟩ r1FailFn ["r2", "r1"]
        (fun _ => false)).2 = true ↔
      ∀ rn ∈ ["r1", "r2"], (r1FailFn rn).success) := by
  refine ⟨⟨rfl, by decide⟩, ?_⟩
  exact (group_continue_on_error ⟨"parallel", 2, true, 600⟩ ⟨"sequential", 1, true, 600⟩
    ["r1", "r2"] ["r2", "r1"] r1FailFn rfl rfl (by decide) (by decide) rfl).2.1

/-- With `continue_on_error` unset and the group deadline never firing,
the sequential loop deploys the members before the first failing one,
deploys the failing member, and returns its error without starting any
later member. -/
theorem seqLoop_stop_on_failure (g : GroupConfig) (deployFn : String → DeployResult)
    (hce : g.continueOnError = false) :
    ∀ (pre : List String) (rn0 : String) (post : List String) (k : Nat)
      (acc : List (String × DeployResult)),
      (∀ rn ∈ pre, (deployFn rn).success) → ¬(deployFn rn0).success →
      seqLoop g deployFn (fun _ => false) k acc (pre ++ rn0 :: post) =
        ((pre ++ [rn0]).foldl (fun a r => insertResult a r (deployFn r)) acc,
         some ("deployment failed for " ++ rn0 ++ ": " ++ (deployFn rn0).error)) := by
  intro pre
  induction pre with
  | nil =>
    intro rn0 post k acc _ hf
    simp only [List.nil_append, seqLoop, hce, List.foldl_cons, List.foldl_nil]
    rw [if_pos ⟨by simpa using hf, by simp⟩]
  | cons p pre' ih =>
    intro rn0 post k acc hpre hf
    have hps : (deployFn p).success := hpre p (List.mem_cons_self _ _)
    simp only [List.cons_append, seqLoop, hce, List.foldl_cons]
    rw [if_neg (by simp [hps]), if_neg (by simp)]
    exact ih rn0 post (k + 1) (insertResult acc p (deployFn p))
      (fun rn hrn => hpre rn (List.mem_cons.mpr (Or.inr hrn))) hf

/-- C3 (amended): with `continue_on_error = false`, the sequential
strategy stops at the first failing member — members before it are
deployed, the failing member's error (naming it) is returned, and no
later member is started; the parallel strategy, by contrast, does not
stop admission on failure — every member is still admitted and deployed
(absent the group deadline) — and the returned error names the first
member to fail in completion order. -/
theorem group_fail_fast (g gs : GroupConfig) (pre post : List String) (rn0 : String)
    (deployFn : String → DeployResult) (order : List String)
    (hpar : g.executionStrategy = "parallel") (hce : g.continueOnError = false)
    (hperm : order.Perm (pre ++ rn0 :: post))
    (hpre : ∀ rn ∈ pre, (deployFn rn).success) (hf : ¬(deployFn rn0).success)
    (hseq : gs.executionStrategy ≠ "parallel") (hces : gs.continueOnError = false) :
    ((deployGroup (pre ++ rn0 :: post) gs deployFn order (fun _ => false)).1 =
      ((pre ++ [rn0]).foldl (fun a r => insertResult a r (deployFn r)) [],
       some ("deployment failed for " ++ rn0 ++ ": " ++ (deployFn rn0).error))) ∧
    (∀ rn ∈ pre ++ rn0 :: post,
      lookupAssoc
          (deployGroup (pre ++ rn0 :: post) g deployFn order (fun _ => false)).1.1 rn =
        some (deployFn rn)) ∧
    (∃ rnF, order.find? (fun rn => ¬(deployFn rn).success) = some rnF ∧
      (deployGroup (pre ++ rn0 :: post) g deployFn order (fun _ => false)).1.2 =
        some ("deployment failed for " ++ rnF ++ ": " ++ (deployFn rnF).error)) := by
  have hgp : deployGroup (pre ++ rn0 :: post) g deployFn order (fun _ => false) =
      (deployGroupParallel (pre ++ rn0 :: post) g deployFn order,
       (deployGroupParallel (pre ++ rn0 :: post) g deployFn order).2.isNone) := by
    simp [deployGroup, hpar]
  have hsome : (order.find? (fun rn => ¬(deployFn rn).success)).isSome := by
    rw [List.find?_isSome]
    exact ⟨rn0, hperm.mem_iff.mpr (List.mem_append.mpr (Or.inr (List.mem_cons_self _ _))),
      by simp [hf]⟩
  obtain ⟨rnF, hFind⟩ := Option.isSome_iff_exists.mp hsome
  have hpe : deployGroupParallel (pre ++ rn0 :: post) g deployFn order =
      (order.foldl (fun acc rn => insertResult acc rn (deployFn rn)) [],
       some ("deployment failed for " ++ rnF ++ ": " ++ (deployFn rnF).error)) := by
    simp only [deployGroupParallel, hce, Bool.false_eq_true, if_false, hFind]
    rw [if_pos ⟨by simp, by simp⟩]
    rfl
  refine ⟨?_, ?_, ?_⟩
  · have hgs : deployGroup (pre ++ rn0 :: post) gs deployFn order (fun _ => false) =
        (deployGroupSequential (pre ++ rn0 :: post) gs deployFn (fun _ => false),
         (deployGroupSequential (pre ++ rn0 :: post) gs deployFn (fun _ => false)).2.isNone) := by
      simp [deployGroup, hseq]
    rw [hgs]
    simp only []
    rw [deployGroupSequential, seqLoop_stop_on_failure gs deployFn hces pre rn0 post 0 [] hpre hf]
  · intro rn hrn
    rw [hgp]
    simp only []
    rw [hpe]
    simp only []
    rw [lookup_foldl_insert, if_pos (hperm.mem_iff.mpr hrn)]
  · refine ⟨rnF, hFind, ?_⟩
    rw [hgp]
    simp only []
    rw [hpe]

/-- Counterexample to C3 as stated: in a parallel group with
`continue_on_error = false` and `max_parallel = 1`, member `r2` is still
admitted and fully deployed after member `r1` — earlier in both
declaration and completion order — has failed. -/
theorem group_fail_fast_parallel_counterexample :
    (r1FailFn "r1").success = false ∧
    lookupAssoc
        (deployGroupParallel ["r1", "r2"] ⟨"parallel", 1, false, 600⟩ r1FailFn
          ["r1", "r2"]).1 "r2" =
      some ⟨"r2", "/ws", ["echo ok"], true, ""⟩ ∧
    (deployGroupParallel ["r1", "r2"] ⟨"parallel", 1, false, 600⟩ r1FailFn
        ["r1", "r2"]).2 = some "deployment failed for r1: boom" := by
  exact ⟨rfl, rfl, rfl⟩

/-- Witness for `group_fail_fast` at a two-member group failing on the
first member. -/
theorem group_fail_fast_witness :
    (¬(r1FailFn "r1").success ∧ (["r1", "r2"] : List String).Perm ["r1", "r2"]) ∧
    (deployGroup ["r1", "r2"] ⟨"sequential", 1, false, 600⟩ r1FailFn ["r1", "r2"]
        (fun _ => false)).1 =
      (List.foldl (fun a r => insertResult a r (r1FailFn r)) [] ["r1"],
       some ("deployment failed for " ++ "r1" ++ ": " ++ (r1FailFn "r1").error)) := by
  refine ⟨⟨by decide, by decide⟩, ?_⟩
  have h := group_fail_fast ⟨"parallel", 1, false, 600⟩ ⟨"sequential", 1, false, 600⟩
    [] ["r2"] "r1" r1FailFn ["r1", "r2"] rfl rfl (by decide)
    (by intro rn hrn; simp at hrn) (by decide) (by decide) rfl
  exact h.1

/-- C5: `GetLatestCommit` decides retryability by searching the error
*text* for the substring `status 4`, not by the HTTP status. A plain 4xx
does fail after exactly one request with no sleeps, and a plain 5xx is
retried three times at 2-second intervals (four requests, three sleeps) —
but a 503 whose response body contains `status 4` is treated as
non-retryable: one request, immediate failure, while the spec's
status-based policy (modelled by `specGetLatestCommit`) retries and
succeeds on the second request. -/
theorem getLatestCommit_retry_on_status_text :
    (getLatestCommit "github" notFoundAttempts).requests = 1 ∧
    (getLatestCommit "github" notFoundAttempts).sleeps = 0 ∧
    (getLatestCommit "github" unavailableAttempts).requests = 4 ∧
    (getLatestCommit "github" unavailableAttempts).sleeps = 3 ∧
    (getLatestCommit "github" status4BodyAttempts).requests = 1 ∧
    (getLatestCommit "github" status4BodyAttempts).sleeps = 0 ∧
    (getLatestCommit "github" status4BodyAttempts).result =
      .error ("failed after 3 retries: GitHub API error (status 503): " ++
        "upstream replied: status 418 teapot") ∧
    (specGetLatestCommit "github" status4BodyAttempts).requests = 2 ∧
    (specGetLatestCommit "github" status4BodyAttempts).result =
      .ok ⟨"ffffffff", "m", "a", 0, "u"⟩ := by
  exact ⟨rfl, rfl, rfl, rfl, rfl, rfl, rfl, rfl, rfl⟩

/-- Counterexample to C9 as stated: on the text `${A-B}` (NAME does not
match `[A-Za-z_][A-Za-z0-9_]*`), `expandEnvVars` still substitutes — the
first regex accepts any non-empty brace-free NAME — producing `""` with
every variable unset, while the claim's exact-identifier rewriting
(`specExpandEnvVars`) leaves the text unchanged. -/
theorem expandEnvVars_counterexample :
    expandEnvVars (fun _ => "") "${A-B}" = "" ∧
    specExpandEnvVars (fun _ => "") "${A-B}" = "${A-B}" ∧
    expandEnvVars (fun _ => "") "${A-B}" ≠ specExpandEnvVars (fun _ => "") "${A-B}" := by
  refine ⟨rfl, rfl, by decide⟩

theorem takeWhile_no_brace (name : List Char) (h : '}' ∉ name) :
    (name ++ ['}']).takeWhile (fun c => decide (c ≠ '}')) = name := by
  induction name with
  | nil => simp [List.takeWhile]
  | cons c rest ih =>
    have hc : c ≠ '}' := fun hh => h (hh ▸ List.mem_cons_self _ _)
    have hr : '}' ∉ rest := fun hh => h (List.mem_cons.mpr (Or.inr hh))
    simp only [List.cons_append, List.takeWhile_cons]
    rw [if_pos (by simp [hc])]
    rw [ih hr]

theorem dropWhile_no_brace (name : List Char) (h : '}' ∉ name) :
    (name ++ ['}']).dropWhile (fun c => decide (c ≠ '}')) = ['}'] := by
  induction name with
  | nil => simp [List.dropWhile]
  | cons c rest ih =>
    have hc : c ≠ '}' := fun hh => h (hh ▸ List.mem_cons_self _ _)
    have hr : '}' ∉ rest := fun hh => h (List.mem_cons.mpr (Or.inr hh))
    simp only [List.cons_append, List.dropWhile_cons]
    rw [if_pos (by simp [hc])]
    exact ih hr

theorem expandBraceGo_no_dollar (env : String → String) :
    ∀ (fuel : Nat) (l : List Char), '$' ∉ l → expandBraceGo env fuel l = l := by
  intro fuel
  induction fuel with
  | zero => intro l _; rfl
  | succ fuel ih =>
    intro l h
    match l with
    | [] => rfl
    | c :: rest =>
      have hc : c ≠ '$' := fun hh => h (hh ▸ List.mem_cons_self _ _)
      have hr : '$' ∉ rest := fun hh => h (List.mem_cons.mpr (Or.inr hh))
      rw [expandBraceGo]
      · rw [ih rest hr]
      · intro rest1 hceq _
        exact hc hceq

theorem expandDollarGo_no_dollar (env : String → String) :
    ∀ (fuel : Nat) (l : List Char), '$' ∉ l → expandDollarGo env fuel l = l := by
  intro fuel
  induction fuel with
  | zero => intro l _; rfl
  | succ fuel ih =>
    intro l h
    match l with
    | [] => rfl
    | c :: rest =>
      have hc : c ≠ '$' := fun hh => h (hh ▸ List.mem_cons_self _ _)
      have hr : '$' ∉ rest := fun hh => h (List.mem_cons.mpr (Or.inr hh))
      rw [expandDollarGo]
      · rw [ih rest hr]
      · intro hceq _
        exact hc hceq
      · intro c1 rest1 hceq _
        exact hc hceq

/-- C9 (amended): `expandEnvVars` rewrites in two passes — first every
`${NAME}` for NAME any non-empty run of characters other than `}`
(identifier or not), then, over the *result* of that pass, every `$NAME`
with NAME matching `[A-Za-z_][A-Za-z0-9_]*`; so a substituted value is
itself subject to `$NAME` expansion. Text containing no `$` is left
unchanged. -/
theorem expandEnvVars_two_pass (env : String → String) (name : List Char) (content : String)
    (h1 : name ≠ []) (h2 : '}' ∉ name) (h3 : '$' ∉ content.toList) :
    expandEnvVars env (String.mk ('$' :: '{' :: (name ++ ['}']))) =
      String.mk (expandDollarPass env (env (String.mk name)).toList) ∧
    expandEnvVars env content = content := by
  constructor
  · have hbrace : expandBracePass env ('$' :: '{' :: (name ++ ['}'])) =
        (env (String.mk name)).toList := by
      have hdw := dropWhile_no_brace name h2
      have htw := takeWhile_no_brace name h2
      have hne : name.isEmpty = false := by
        cases name with
        | nil => exact absurd rfl h1
        | cons a b => rfl
      rw [expandBracePass]
      simp only [List.length_cons]
      rw [expandBraceGo]
      simp only [hdw, htw, hne, Bool.false_eq_true, if_false]
      rw [expandBraceGo]
      rw [List.append_nil]
    calc expandEnvVars env (String.mk ('$' :: '{' :: (name ++ ['}'])))
        = String.mk (expandDollarPass env
            (expandBracePass env ('$' :: '{' :: (name ++ ['}'])))) := rfl
      _ = String.mk (expandDollarPass env (env (String.mk name)).toList) := by rw [hbrace]
  · have hb := expandBraceGo_no_dollar env content.toList.length content.toList h3
    have hd := expandDollarGo_no_dollar env content.toList.length content.toList h3
    rw [expandEnvVars, expandBracePass, hb, expandDollarPass, hd]
    cases content
    rfl

/-- Witness for `expandEnvVars_two_pass`: expanding `${A}` where the value
of `A` is `$B` re-expands the substituted `$B` in the second pass. -/
theorem expandEnvVars_two_pass_witness :
    ((['A'] : List Char) ≠ [] ∧ '}' ∉ (['A'] : List Char) ∧
      '$' ∉ ("plain" : String).toList) ∧
    expandEnvVars (fun n => if n = "A" then "$B" else if n = "B" then "z" else "")
        (String.mk ('$' :: '{' :: (['A'] ++ ['}']))) =
      String.mk (expandDollarPass
        (fun n => if n = "A" then "$B" else if n = "B" then "z" else "")
        ((fun n => if n = "A" then "$B" else if n = "B" then "z" else "")
          (String.mk ['A'])).toList) := by
  refine ⟨⟨by decide, by decide, by decide⟩, ?_⟩
  exact (expandEnvVars_two_pass
    (fun n => if n = "A" then "$B" else if n = "B" then "z" else "")
    ['A'] "plain" (by decide) (by decide) (by decide)).1

/-- Counterexample to C7 as stated: `DeployIndividual` passes
`context.Background()` — no deadline — even though
`GlobalSettings.timeout = 50` is set, so the claimed outer deadline
`now + 50` (modelled by `specIndividualOuterDeadline`) is never
installed; consequently each command runs under the full 5-minute
per-command budget instead of being capped at 50 seconds. -/
theorem deployIndividual_no_deadline_counterexample :
    deployIndividualCtx = none ∧
    specIndividualOuterDeadline timeoutConfig = some 50 ∧
    deployIndividualCtx ≠ specIndividualOuterDeadline timeoutConfig ∧
    deployCommandTimeouts timeoutConfig "r1" deployIndividualCtx = [300] ∧
    deployCommandTimeouts timeoutConfig "r1" (specIndividualOuterDeadline timeoutConfig) =
      [50] := by
  exact ⟨rfl, rfl, by decide, rfl, rfl⟩

/-- C7 (amended): every individual deployment — dispatched by the poller
or by the manual trigger, both of which call `DeployIndividual` — runs
under no outer deadline (`context.Background()`), regardless of
`GlobalSettings.timeout`; only the fixed 5-minute per-command timeout
applies to each command. -/
theorem deployIndividual_background_ctx (cfg : Config) (repoName : String)
    (fx : DeployEffects) (repo : RepositoryConfig)
    (hfind : cfg.repositories.find? (fun r => r.name = repoName) = some repo) :
    (deployIndividual cfg repoName fx).1 = deployRepository cfg repoName fx none ∧
    deployCommandTimeouts cfg repoName deployIndividualCtx =
      List.replicate repo.deploy.commands.length 300 := by
  refine ⟨rfl, ?_⟩
  rw [deployCommandTimeouts, hfind]
  have hmap : ∀ l : List String, l.map (fun _ => (300 : Int)) = List.replicate l.length 300 := by
    intro l
    induction l with
    | nil => rfl
    | cons c cs ih => simp [List.replicate, ih]
  exact hmap repo.deploy.commands

/-- Witness for `deployIndividual_background_ctx` at the fixture
configuration. -/
theorem deployIndividual_background_ctx_witness :
    (timeoutConfig.repositories.find? (fun r => r.name = "r1") = some (mkRepo "r1" "" ["main"])) ∧
    deployCommandTimeouts timeoutConfig "r1" deployIndividualCtx =
      List.replicate (mkRepo "r1" "" ["main"]).deploy.commands.length 300 := by
  refine ⟨rfl, ?_⟩
  exact (deployIndividual_background_ctx timeoutConfig "r1" okEffects
    (mkRepo "r1" "" ["main"]) rfl).2

/-- Counterexample to C10 as stated: a fetched fingerprint shorter than
8 bytes makes `checkRepositoryBranch` panic (the `commit.SHA[:8]` log
slice) — on the first-observation path after the entry was installed,
and on the change path (here a 1-byte stored fingerprint) before the
entry is updated. -/
theorem checkRepositoryBranch_short_sha_panics :
    checkRepositoryBranch [] "r1" "main" (.ok ⟨"abc", "m", "a", 0, "u"⟩) =
      .panicked [("r1:main", "abc")] ∧
    checkRepositoryBranch [("r1:main", "x")] "r1" "main"
        (.ok ⟨"abcdefgh", "m", "a", 0, "u"⟩) =
      .panicked [("r1:main", "x")] := by
  exact ⟨rfl, rfl⟩

/-- C10 (amended): processing a successfully fetched commit observation
is total — no panic, at most one change event, and the SeenMap entry left
equal to the new fingerprint — provided the new fingerprint, and any
previously stored one, is at least 8 bytes long (always true of real
platform commit identifiers); with a shorter fingerprint the logging
slice `SHA[:8]` panics. -/
theorem checkRepositoryBranch_total_for_long_shas (seen : SeenMap)
    (repoName branch : String) (c : CommitInfo)
    (h1 : 8 ≤ c.sha.utf8ByteSize)
    (h2 : ∀ s, lookupSeen seen (repoName ++ ":" ++ branch) = some s → 8 ≤ s.utf8ByteSize) :
    ∃ changed seen',
      checkRepositoryBranch seen repoName branch (.ok c) = .done changed seen' ∧
      lookupSeen seen' (repoName ++ ":" ++ branch) = some c.sha ∧
      (changed = true ↔
        ∃ s, lookupSeen seen (repoName ++ ":" ++ branch) = some s ∧ s ≠ c.sha) := by
  rw [checkRepositoryBranch]
  cases hl : lookupSeen seen (repoName ++ ":" ++ branch) with
  | none =>
    have hlt : ¬c.sha.utf8ByteSize < 8 := by omega
    refine ⟨false, insertSeen seen (repoName ++ ":" ++ branch) c.sha, ?_, ?_, ?_⟩
    · simp [hlt]
    · rw [insertSeen, lookupSeen, lookup_insertAssoc, if_pos rfl]
    · simp only [Bool.false_eq_true, false_iff]
      rintro ⟨s, hs, _⟩
      simp at hs
  | some last =>
    have hlast : 8 ≤ last.utf8ByteSize := h2 last hl
    by_cases hne : c.sha = last
    · refine ⟨false, seen, ?_, ?_, ?_⟩
      · simp [hne]
      · rw [hl, hne]
      · simp only [Bool.false_eq_true, false_iff]
        rintro ⟨s, hs, hsne⟩
        injection hs with hs'
        subst hs'
        exact hsne hne.symm
    · have hlt : ¬(last.utf8ByteSize < 8 ∨ c.sha.utf8ByteSize < 8) := by
        push_neg
        omega
      refine ⟨true, insertSeen seen (repoName ++ ":" ++ branch) c.sha, ?_, ?_, ?_⟩
      · simp [hne, hlt]
      · rw [insertSeen, lookupSeen, lookup_insertAssoc, if_pos rfl]
      · simp only [true_iff]
        exact ⟨last, rfl, fun hh => hne hh.symm⟩

/-- Witness for `checkRepositoryBranch_total_for_long_shas`: a first
observation of an 8-byte fingerprint completes without panic. -/
theorem checkRepositoryBranch_total_witness :
    (8 ≤ ("aaaaaaaa" : String).utf8ByteSize) ∧
    ∃ changed seen',
      checkRepositoryBranch [] "r1" "main" (.ok ⟨"aaaaaaaa", "m", "a", 0, "u"⟩) =
        .done changed seen' ∧
      lookupSeen seen' ("r1" ++ ":" ++ "main") = some ("aaaaaaaa" : String) ∧
      (changed = true ↔
        ∃ s, lookupSeen ([] : SeenMap) ("r1" ++ ":" ++ "main") = some s ∧
          s ≠ ("aaaaaaaa" : String)) := by
  refine ⟨by decide, ?_⟩
  exact checkRepositoryBranch_total_for_long_shas [] "r1" "main"
    ⟨"aaaaaaaa", "m", "a", 0, "u"⟩ (by decide)
    (fun s hs => by simp [lookupSeen, lookupAssoc] at hs)

theorem insertAssoc_self {α : Type} (l : List (String × α)) (k : String) (v : α) :
    lookupAssoc l k = some v → insertAssoc l k v = l := by
  induction l with
  | nil => intro h; simp [lookupAssoc] at h
  | cons p rest ih =>
    obtain ⟨a, b⟩ := p
    intro h
    simp only [lookupAssoc] at h
    by_cases ha : a = k
    · rw [if_pos ha] at h
      injection h with hv
      rw [insertAssoc, if_pos ha, hv]
    · rw [if_neg ha] at h
      rw [insertAssoc, if_neg ha, ih h]

theorem seenConsistent_nil (cfg : Config) (commit : String → String → CommitInfo) :
    seenConsistent cfg commit [] := by
  intro k v h
  simp [lookupSeen, lookupAssoc] at h

/-- Probing one configured branch whose fetched fingerprint is valid
(≥ 8 bytes), starting from a consistent SeenMap, reports no change and
merely (re-)installs the pair's fingerprint; consistency is preserved. -/
theorem checkRepositoryBranch_consistent (cfg : Config)
    (commit : String → String → CommitInfo)
    (hkeys : ∀ r ∈ cfg.repositories, ∀ b ∈ r.monitor.branches,
      ∀ r' ∈ cfg.repositories, ∀ b' ∈ r'.monitor.branches,
        r.name ++ ":" ++ b = r'.name ++ ":" ++ b' → r.name = r'.name ∧ b = b')
    (hvalid : ∀ r ∈ cfg.repositories, ∀ b ∈ r.monitor.branches,
      8 ≤ (commit r.name b).sha.utf8ByteSize)
    (r : RepositoryConfig) (hr : r ∈ cfg.repositories)
    (b : String) (hb : b ∈ r.monitor.branches)
    (seen : SeenMap) (hcons : seenConsistent cfg commit seen) :
    checkRepositoryBranch seen r.name b (.ok (commit r.name b)) =
      .done false (recordPair commit seen (r.name, b)) ∧
    seenConsistent cfg commit (recordPair commit seen (r.name, b)) := by
  have hv8 := hvalid r hr b hb
  cases hl : lookupSeen seen (r.name ++ ":" ++ b) with
  | none =>
    constructor
    · have hlt : ¬(commit r.name b).sha.utf8ByteSize < 8 := by omega
      simp only [checkRepositoryBranch, hl, recordPair, insertSeen]
      simp [hlt]
    · intro k v hkv
      rw [recordPair, insertSeen, lookupSeen, lookup_insertAssoc] at hkv
      by_cases hk : k = r.name ++ ":" ++ b
      · rw [if_pos hk] at hkv
        injection hkv with hv
        exact ⟨r, hr, b, hb, hk, hv.symm⟩
      · rw [if_neg hk] at hkv
        exact hcons k v hkv
  | some v =>
    obtain ⟨r₀, hr₀, b₀, hb₀, hkeq, hveq⟩ := hcons _ _ hl
    obtain ⟨hn, hbq⟩ := hkeys r hr b hb r₀ hr₀ b₀ hb₀ hkeq
    have hsha : v = (commit r.name b).sha := by rw [hveq, ← hn, ← hbq]
    have hins : insertSeen seen (r.name ++ ":" ++ b) (commit r.name b).sha = seen :=
      insertAssoc_self _ _ _ (by rw [← hsha]; exact hl)
    have hrp : recordPair commit seen (r.name, b) = seen := hins
    constructor
    · simp only [checkRepositoryBranch, hl]
      rw [if_neg (fun hh => hh hsha.symm)]
      rw [hrp]
    · rw [hrp]
      exact hcons

/-- Probing one configured repository with valid fetches and a consistent
SeenMap probes every branch, reports no change, and only (re-)installs
fingerprints. -/
theorem checkRepository_no_change (cfg : Config)
    (commit : String → String → CommitInfo)
    (fetch : String → String → Except String CommitInfo)
    (hkeys : ∀ r ∈ cfg.repositories, ∀ b ∈ r.monitor.branches,
      ∀ r' ∈ cfg.repositories, ∀ b' ∈ r'.monitor.branches,
        r.name ++ ":" ++ b = r'.name ++ ":" ++ b' → r.name = r'.name ∧ b = b')
    (hvalid : ∀ r ∈ cfg.repositories, ∀ b ∈ r.monitor.branches,
      8 ≤ (commit r.name b).sha.utf8ByteSize)
    (r : RepositoryConfig) (hr : r ∈ cfg.repositories)
    (hfetchr : ∀ b ∈ r.monitor.branches, fetch r.name b = .ok (commit r.name b)) :
    ∀ (bs : List String), (∀ x ∈ bs, x ∈ r.monitor.branches) →
      ∀ seen, seenConsistent cfg commit seen →
      checkRepository (fetch r.name) seen r.name bs =
        ⟨.unchanged, bs.foldl (fun s b => recordPair commit s (r.name, b)) seen, bs⟩ ∧
      seenConsistent cfg commit
        (bs.foldl (fun s b => recordPair commit s (r.name, b)) seen) := by
  intro bs
  induction bs with
  | nil => intro _ seen hcons; exact ⟨rfl, hcons⟩
  | cons b bs' ih =>
    intro hbs seen hcons
    have hb : b ∈ r.monitor.branches := hbs b (List.mem_cons_self _ _)
    have hcb := checkRepositoryBranch_consistent cfg commit hkeys hvalid r hr b hb seen hcons
    have hrest := ih (fun x hx => hbs x (List.mem_cons.mpr (Or.inr hx)))
      (recordPair commit seen (r.name, b)) hcb.2
    constructor
    · simp only [checkRepository, hfetchr b hb, hcb.1, hrest.1, List.foldl_cons]
    · simp only [List.foldl_cons]
      exact hrest.2

/-- Scanning a list of configured repositories with valid fetches from a
consistent SeenMap: every (repo, branch) pair is probed, every repository
is reported unchanged, nothing panics, and the SeenMap only
(re-)installs fingerprints. -/
theorem scanRepositories_no_change (cfg : Config)
    (commit : String → String → CommitInfo)
    (fetch : String → String → Except String CommitInfo)
    (hkeys : ∀ r ∈ cfg.repositories, ∀ b ∈ r.monitor.branches,
      ∀ r' ∈ cfg.repositories, ∀ b' ∈ r'.monitor.branches,
        r.name ++ ":" ++ b = r'.name ++ ":" ++ b' → r.name = r'.name ∧ b = b')
    (hvalid : ∀ r ∈ cfg.repositories, ∀ b ∈ r.monitor.branches,
      8 ≤ (commit r.name b).sha.utf8ByteSize)
    (hfetch : ∀ r ∈ cfg.repositories, ∀ b ∈ r.monitor.branches,
      fetch r.name b = .ok (commit r.name b)) :
    ∀ (rs : List RepositoryConfig), (∀ x ∈ rs, x ∈ cfg.repositories) →
      ∀ seen, seenConsistent cfg commit seen →
      scanRepositories fetch seen rs =
        ⟨rs.map (fun r => (r, RepoResult.unchanged)),
         rs.foldl (fun s r =>
           r.monitor.branches.foldl (fun s' b => recordPair commit s' (r.name, b)) s) seen,
         rs.flatMap (fun r => r.monitor.branches.map (fun b => (r.name, b))),
         false⟩ ∧
      seenConsistent cfg commit
        (rs.foldl (fun s r =>
          r.monitor.branches.foldl (fun s' b => recordPair commit s' (r.name, b)) s) seen) := by
  intro rs
  induction rs with
  | nil => intro _ seen hcons; exact ⟨rfl, hcons⟩
  | cons r rs' ih =>
    intro hrs seen hcons
    have hr : r ∈ cfg.repositories := hrs r (List.mem_cons_self _ _)
    have hcr := checkRepository_no_change cfg commit fetch hkeys hvalid r hr
      (hfetch r hr) r.monitor.branches (fun x hx => hx) seen hcons
    have hrest := ih (fun x hx => hrs x (List.mem_cons.mpr (Or.inr hx)))
      (r.monitor.branches.foldl (fun s' b => recordPair commit s' (r.name, b)) seen) hcr.2
    constructor
    · simp only [scanRepositories, hcr.1, hrest.1, List.map_cons, List.foldl_cons,
        List.flatMap_cons]
    · simp only [List.foldl_cons]
      exact hrest.2

/-- Recording any configured pair preserves the recorded fingerprint of a
configured pair (the keys either differ, or name the same pair and
re-install the same fingerprint). -/
theorem lookup_after_record (cfg : Config) (commit : String → String → CommitInfo)
    (hkeys : ∀ r ∈ cfg.repositories, ∀ b ∈ r.monitor.branches,
      ∀ r' ∈ cfg.repositories, ∀ b' ∈ r'.monitor.branches,
        r.name ++ ":" ++ b = r'.name ++ ":" ++ b' → r.name = r'.name ∧ b = b')
    (r : RepositoryConfig) (hr : r ∈ cfg.repositories)
    (b : String) (hb : b ∈ r.monitor.branches)
    (r' : RepositoryConfig) (hr' : r' ∈ cfg.repositories)
    (b' : String) (hb' : b' ∈ r'.monitor.branches)
    (s : SeenMap)
    (h : lookupSeen s (r.name ++ ":" ++ b) = some (commit r.name b).sha) :
    lookupSeen (recordPair commit s (r'.name, b')) (r.name ++ ":" ++ b) =
      some (commit r.name b).sha := by
  rw [recordPair, insertSeen, lookupSeen, lookup_insertAssoc]
  by_cases hk : r.name ++ ":" ++ b = r'.name ++ ":" ++ b'
  · rw [if_pos hk]
    obtain ⟨hn, hbq⟩ := hkeys r hr b hb r' hr' b' hb' hk
    rw [← hn, ← hbq]
  · rw [if_neg hk]
    exact h

/-- The inner branch fold preserves recorded fingerprints of configured
pairs. -/
theorem lookup_after_branchFold (cfg : Config) (commit : String → String → CommitInfo)
    (hkeys : ∀ r ∈ cfg.repositories, ∀ b ∈ r.monitor.branches,
      ∀ r' ∈ cfg.repositories, ∀ b' ∈ r'.monitor.branches,
        r.name ++ ":" ++ b = r'.name ++ ":" ++ b' → r.name = r'.name ∧ b = b')
    (r' : RepositoryConfig) (hr' : r' ∈ cfg.repositories)
    (r : RepositoryConfig) (hr : r ∈ cfg.repositories)
    (b : String) (hb : b ∈ r.monitor.branches) :
    ∀ (bs : List String), (∀ x ∈ bs, x ∈ r'.monitor.branches) → ∀ s,
      lookupSeen s (r.name ++ ":" ++ b) = some (commit r.name b).sha →
      lookupSeen (bs.foldl (fun s'' b'' => recordPair commit s'' (r'.name, b'')) s)
          (r.name ++ ":" ++ b) =
        some (commit r.name b).sha := by
  intro bs
  induction bs with
  | nil => intro _ s h; exact h
  | cons b0 bs' ih =>
    intro hbs s h
    simp only [List.foldl_cons]
    exact ih (fun x hx => hbs x (List.mem_cons.mpr (Or.inr hx))) _
      (lookup_after_record cfg commit hkeys r hr b hb r' hr'
        b0 (hbs b0 (List.mem_cons_self _ _)) s h)

/-- After the inner branch fold of repository `r`, every branch of `r` in
the fold has its fingerprint recorded. -/
theorem lookup_establish_branchFold (cfg : Config) (commit : String → String → CommitInfo)
    (hkeys : ∀ r ∈ cfg.repositories, ∀ b ∈ r.monitor.branches,
      ∀ r' ∈ cfg.repositories, ∀ b' ∈ r'.monitor.branches,
        r.name ++ ":" ++ b = r'.name ++ ":" ++ b' → r.name = r'.name ∧ b = b')
    (r : RepositoryConfig) (hr : r ∈ cfg.repositories) :
    ∀ (bs : List String), (∀ x ∈ bs, x ∈ r.monitor.branches) →
      ∀ (b : String), b ∈ bs → ∀ s,
      lookupSeen (bs.foldl (fun s'' b'' => recordPair commit s'' (r.name, b'')) s)
          (r.name ++ ":" ++ b) =
        some (commit r.name b).sha := by
  intro bs
  induction bs with
  | nil => intro _ b hbb; simp at hbb
  | cons b0 bs' ih =>
    intro hbs b hbb s
    simp only [List.foldl_cons]
    rcases List.mem_cons.mp hbb with hb0 | hbb'
    · subst hb0
      have hb : b ∈ r.monitor.branches := hbs b (List.mem_cons_self _ _)
      refine lookup_after_branchFold cfg commit hkeys r hr r hr b hb bs'
        (fun x hx => hbs x (List.mem_cons.mpr (Or.inr hx))) _ ?_
      rw [recordPair, insertSeen, lookupSeen, lookup_insertAssoc, if_pos rfl]
    · exact ih (fun x hx => hbs x (List.mem_cons.mpr (Or.inr hx))) b hbb' _

/-- The outer repository fold preserves recorded fingerprints of
configured pairs. -/
theorem lookup_after_repoFold (cfg : Config) (commit : String → String → CommitInfo)
    (hkeys : ∀ r ∈ cfg.repositories, ∀ b ∈ r.monitor.branches,
      ∀ r' ∈ cfg.repositories, ∀ b' ∈ r'.monitor.branches,
        r.name ++ ":" ++ b = r'.name ++ ":" ++ b' → r.name = r'.name ∧ b = b')
    (r : RepositoryConfig) (hr : r ∈ cfg.repositories)
    (b : String) (hb : b ∈ r.monitor.branches) :
    ∀ (rs : List RepositoryConfig), (∀ x ∈ rs, x ∈ cfg.repositories) → ∀ s,
      lookupSeen s (r.name ++ ":" ++ b) = some (commit r.name b).sha →
      lookupSeen
          (rs.foldl (fun s' r' =>
            r'.monitor.branches.foldl (fun s'' b'' => recordPair commit s'' (r'.name, b'')) s') s)
          (r.name ++ ":" ++ b) =
        some (commit r.name b).sha := by
  intro rs
  induction rs with
  | nil => intro _ s h; exact h
  | cons r0 rs' ih =>
    intro hrs s h
    simp only [List.foldl_cons]
    exact ih (fun x hx => hrs x (List.mem_cons.mpr (Or.inr hx))) _
      (lookup_after_branchFold cfg commit hkeys r0 (hrs r0 (List.mem_cons_self _ _))
        r hr b hb r0.monitor.branches (fun x hx => hx) s h)

/-- After the outer repository fold, every configured pair in the fold has
its fingerprint recorded. -/
theorem lookup_establish_repoFold (cfg : Config) (commit : String → String → CommitInfo)
    (hkeys : ∀ r ∈ cfg.repositories, ∀ b ∈ r.monitor.branches,
      ∀ r' ∈ cfg.repositories, ∀ b' ∈ r'.monitor.branches,
        r.name ++ ":" ++ b = r'.name ++ ":" ++ b' → r.name = r'.name ∧ b = b') :
    ∀ (rs : List RepositoryConfig), (∀ x ∈ rs, x ∈ cfg.repositories) →
      ∀ (r : RepositoryConfig), r ∈ rs → ∀ (b : String), b ∈ r.monitor.branches → ∀ s,
      lookupSeen
          (rs.foldl (fun s' r' =>
            r'.monitor.branches.foldl (fun s'' b'' => recordPair commit s'' (r'.name, b'')) s') s)
          (r.name ++ ":" ++ b) =
        some (commit r.name b).sha := by
  intro rs
  induction rs with
  | nil => intro _ r hrr; simp at hrr
  | cons r0 rs' ih =>
    intro hrs r hrr b hb s
    simp only [List.foldl_cons]
    rcases List.mem_cons.mp hrr with hr0 | hrr'
    · subst hr0
      have hr : r ∈ cfg.repositories := hrs r (List.mem_cons_self _ _)
      exact lookup_after_repoFold cfg commit hkeys r hr b hb rs'
        (fun x hx => hrs x (List.mem_cons.mpr (Or.inr hx))) _
        (lookup_establish_branchFold cfg commit hkeys r hr r.monitor.branches
          (fun x hx => hx) b hb s)
    · exact ih (fun x hx => hrs x (List.mem_cons.mpr (Or.inr hx))) r hrr' b hb _

theorem buildPlanFrom_unchanged (cfg : Config) :
    ∀ (rs : List RepositoryConfig) (plan : TriggerPlan),
      buildPlanFrom cfg plan (rs.map (fun r => (r, RepoResult.unchanged))) = plan := by
  intro rs
  induction rs with
  | nil => intro plan; rfl
  | cons r rs' ih => intro plan; simp only [List.map_cons, buildPlanFrom, planStep, ih]

/-- C4 (amended): starting from an empty SeenMap, if every configured
(repo, branch) pair's first probe succeeds with a valid (≥ 8 byte)
fingerprint, and the cache keys `name ++ ":" ++ branch` of distinct
configured pairs do not collide, then the change detector installs each
fingerprint as the baseline, reports no change anywhere, and the first
tick after startup produces an empty trigger plan — zero deployments —
while probing every configured pair. (Without the key-distinctness
proviso a first tick can deploy, see the counterexample.) -/
theorem first_tick_no_deploy (cfg : Config)
    (commit : String → String → CommitInfo)
    (fetch : String → String → Except String CommitInfo)
    (hfetch : ∀ r ∈ cfg.repositories, ∀ b ∈ r.monitor.branches,
      fetch r.name b = .ok (commit r.name b))
    (hvalid : ∀ r ∈ cfg.repositories, ∀ b ∈ r.monitor.branches,
      8 ≤ (commit r.name b).sha.utf8ByteSize)
    (hkeys : ∀ r ∈ cfg.repositories, ∀ b ∈ r.monitor.branches,
      ∀ r' ∈ cfg.repositories, ∀ b' ∈ r'.monitor.branches,
        r.name ++ ":" ++ b = r'.name ++ ":" ++ b' → r.name = r'.name ∧ b = b') :
    (checkAllRepositories cfg fetch []).plan = ⟨[], [], []⟩ ∧
    (checkAllRepositories cfg fetch []).panicked = false ∧
    (checkAllRepositories cfg fetch []).probed = configPairs cfg ∧
    ∀ r ∈ cfg.repositories, ∀ b ∈ r.monitor.branches,
      lookupSeen (checkAllRepositories cfg fetch []).seen (r.name ++ ":" ++ b) =
        some (commit r.name b).sha := by
  have hscan := scanRepositories_no_change cfg commit fetch hkeys hvalid hfetch
    cfg.repositories (fun x hx => hx) [] (seenConsistent_nil cfg commit)
  refine ⟨?_, ?_, ?_, ?_⟩
  · simp only [checkAllRepositories, hscan.1]
    rw [buildTriggerPlan, buildPlanFrom_unchanged]
  · simp only [checkAllRepositories, hscan.1]
  · simp only [checkAllRepositories, hscan.1, configPairs]
  · intro r hr b hb
    simp only [checkAllRepositories, hscan.1]
    exact lookup_establish_repoFold cfg commit hkeys cfg.repositories
      (fun x hx => hx) r hr b hb []

/-- Witness for `first_tick_no_deploy` at a one-repository configuration
with a constant valid fingerprint. -/
theorem first_tick_no_deploy_witness :
    (∀ r ∈ timeoutConfig.repositories, ∀ b ∈ r.monitor.branches,
      (fun _ _ => (Except.ok (mkCommit "aaaaaaaa") : Except String CommitInfo)) r.name b =
        .ok ((fun _ _ => mkCommit "aaaaaaaa") r.name b)) ∧
    (checkAllRepositories timeoutConfig (fun _ _ => .ok (mkCommit "aaaaaaaa")) []).plan =
      ⟨[], [], []⟩ := by
  refine ⟨fun r _ b _ => rfl, ?_⟩
  exact (first_tick_no_deploy timeoutConfig (fun _ _ => mkCommit "aaaaaaaa")
    (fun _ _ => .ok (mkCommit "aaaaaaaa"))
    (fun r _ b _ => rfl)
    (fun r _ b _ => by show 8 ≤ (mkCommit "aaaaaaaa").sha.utf8ByteSize; decide)
    (by decide)).1

/-- Counterexample to C4 as stated: in `collisionConfig` the two distinct
configured pairs `("a", "b:c")` and `("a:b", "c")` share the cache key
`a:b:c`; every first probe returns a valid commit, yet the second pair
finds the first pair's entry, sees a differing fingerprint, and the first
tick after startup triggers an individual deployment of `a:b`. -/
theorem first_tick_collision_counterexample :
    collisionFetch "a" "b:c" = .ok (mkCommit "aaaaaaaa") ∧
    collisionFetch "a:b" "c" = .ok (mkCommit "bbbbbbbb") ∧
    8 ≤ (mkCommit "aaaaaaaa").sha.utf8ByteSize ∧
    8 ≤ (mkCommit "bbbbbbbb").sha.utf8ByteSize ∧
    (checkAllRepositories collisionConfig collisionFetch []).plan.individuals = ["a:b"] ∧
    (checkAllRepositories collisionConfig collisionFetch []).plan.groups = [] ∧
    (checkAllRepositories collisionConfig collisionFetch []).panicked = false := by
  exact ⟨rfl, rfl, by decide, by decide, rfl, rfl, rfl⟩

theorem lookupAssoc_append {α : Type} (l l' : List (String × α)) (q : String) :
    lookupAssoc (l ++ l') q =
      match lookupAssoc l q with
      | some v => some v
      | none => lookupAssoc l' q := by
  induction l with
  | nil => simp [lookupAssoc]
  | cons p rest ih =>
    obtain ⟨a, b⟩ := p
    simp only [List.cons_append, lookupAssoc]
    by_cases ha : a = q
    · simp [ha]
    · simp only [if_neg ha]
      exact ih

/-- Looking up key `q` after the `appendMembers` map step, which rewrites
only values stored under key `K`. -/
theorem lookup_map_update (ms : List String) (K : String) :
    ∀ (l : List (String × GroupTrigger)) (q : String),
      lookupAssoc (l.map (appendMembers ms K)) q =
        if q = K then
          (lookupAssoc l q).map
            (fun t => ⟨t.groupName, t.repositories ++ ms, t.triggerRepo⟩)
        else lookupAssoc l q := by
  intro l
  induction l with
  | nil => intro q; by_cases hq : q = K <;> simp [lookupAssoc, hq]
  | cons p rest ih =>
    obtain ⟨a, v⟩ := p
    intro q
    simp only [List.map_cons, appendMembers]
    by_cases ha : a = K
    · rw [if_pos ha]
      simp only [lookupAssoc]
      by_cases haq : a = q
      · subst haq
        rw [if_pos rfl, if_pos ha, if_pos rfl]
        rfl
      · rw [if_neg haq, ih q]
        by_cases hq : q = K
        · rw [if_pos hq, if_pos hq]
          simp only [lookupAssoc, if_neg haq]
        · rw [if_neg hq, if_neg hq]
          simp only [lookupAssoc, if_neg haq]
    · rw [if_neg ha]
      simp only [lookupAssoc]
      by_cases haq : a = q
      · subst haq
        have hq : ¬(a = K) := ha
        rw [if_pos rfl, if_neg hq, if_pos rfl]
      · rw [if_neg haq, ih q]
        by_cases hq : q = K
        · rw [if_pos hq, if_pos hq]
          simp only [lookupAssoc, if_neg haq]
        · rw [if_neg hq, if_neg hq]
          simp only [lookupAssoc, if_neg haq]

/-- The `appendMembers` map step preserves keys, hence key counts. -/
theorem countP_map_update (ms : List String) (K G : String) :
    ∀ (l : List (String × GroupTrigger)),
      (l.map (appendMembers ms K)).countP (fun p => p.1 == G) =
        l.countP (fun p => p.1 == G) := by
  intro l
  induction l with
  | nil => rfl
  | cons p rest ih =>
    obtain ⟨a, v⟩ := p
    simp only [List.map_cons, List.countP_cons, appendMembers]
    by_cases ha : a = K
    · rw [if_pos ha]
      simp only [ih]
    · rw [if_neg ha]
      simp only [ih]

theorem addGroupTrigger_lookup_other (cfg : Config)
    (groups : List (String × GroupTrigger)) (repo : RepositoryConfig) (G : String)
    (hne : repo.group ≠ G) :
    lookupAssoc (addGroupTrigger cfg groups repo) G = lookupAssoc groups G := by
  simp only [addGroupTrigger]
  rw [lookup_map_update, if_neg (fun hh => hne hh.symm)]
  by_cases h : (lookupAssoc groups repo.group).isNone
  · rw [if_pos h, lookupAssoc_append]
    cases hl : lookupAssoc groups G with
    | some t => rfl
    | none =>
      simp only [lookupAssoc]
      rw [if_neg hne]
  · rw [if_neg h]

theorem addGroupTrigger_countP_other (cfg : Config)
    (groups : List (String × GroupTrigger)) (repo : RepositoryConfig) (G : String)
    (hne : repo.group ≠ G) :
    (addGroupTrigger cfg groups repo).countP (fun p => p.1 == G) =
      groups.countP (fun p => p.1 == G) := by
  simp only [addGroupTrigger]
  rw [countP_map_update]
  by_cases h : (lookupAssoc groups repo.group).isNone
  · rw [if_pos h, List.countP_append]
    simp [hne]
  · rw [if_neg h]

theorem addGroupTrigger_self_none (cfg : Config)
    (groups : List (String × GroupTrigger)) (repo : RepositoryConfig) (G : String)
    (hgr : repo.group = G) (hnone : lookupAssoc groups G = none) :
    lookupAssoc (addGroupTrigger cfg groups repo) G =
      some ⟨G, groupMembers cfg G, repo.name⟩ ∧
    (addGroupTrigger cfg groups repo).countP (fun p => p.1 == G) =
      groups.countP (fun p => p.1 == G) + 1 := by
  subst hgr
  have hisn : (lookupAssoc groups repo.group).isNone := by rw [hnone]; rfl
  constructor
  · simp only [addGroupTrigger, if_pos hisn]
    rw [lookup_map_update, if_pos rfl, lookupAssoc_append, hnone]
    simp only [lookupAssoc, if_pos rfl]
    rfl
  · simp only [addGroupTrigger, if_pos hisn]
    rw [countP_map_update, List.countP_append]
    simp

theorem addGroupTrigger_self_some (cfg : Config)
    (groups : List (String × GroupTrigger)) (repo : RepositoryConfig) (G : String)
    (t : GroupTrigger) (hgr : repo.group = G) (hsome : lookupAssoc groups G = some t) :
    lookupAssoc (addGroupTrigger cfg groups repo) G =
      some ⟨t.groupName, t.repositories ++ groupMembers cfg G, t.triggerRepo⟩ ∧
    (addGroupTrigger cfg groups repo).countP (fun p => p.1 == G) =
      groups.countP (fun p => p.1 == G) := by
  subst hgr
  have hisn : ¬(lookupAssoc groups repo.group).isNone := by rw [hsome]; simp
  constructor
  · simp only [addGroupTrigger, if_neg hisn]
    rw [lookup_map_update, if_pos rfl, hsome]
    rfl
  · simp only [addGroupTrigger, if_neg hisn]
    rw [countP_map_update]

/-- How the planning fold of `CheckAllRepositories` treats the entry of a
group `G`: each changed member of `G` appends one full copy of the
declared membership to the entry's member list, creating the entry (with
the first changed member as triggering repo) if absent; the entry's key
appears at most once. -/
theorem buildPlanFrom_group_lookup (cfg : Config) (G : String) (hG : G ≠ "") :
    ∀ (os : List (RepositoryConfig × RepoResult)) (plan : TriggerPlan),
      (∀ t, lookupAssoc plan.groups G = some t →
        lookupAssoc (buildPlanFrom cfg plan os).groups G =
          some ⟨t.groupName,
            t.repositories ++
              (os.filter (fun p => decide (p.1.group = G ∧ p.2 = RepoResult.changed))).flatMap
                (fun _ => groupMembers cfg G),
            t.triggerRepo⟩ ∧
        (buildPlanFrom cfg plan os).groups.countP (fun p => p.1 == G) =
          plan.groups.countP (fun p => p.1 == G)) ∧
      (lookupAssoc plan.groups G = none →
        (os.filter (fun p => decide (p.1.group = G ∧ p.2 = RepoResult.changed)) = [] →
          lookupAssoc (buildPlanFrom cfg plan os).groups G = none ∧
          (buildPlanFrom cfg plan os).groups.countP (fun p => p.1 == G) =
            plan.groups.countP (fun p => p.1 == G)) ∧
        (∀ e rest,
          os.filter (fun p => decide (p.1.group = G ∧ p.2 = RepoResult.changed)) = e :: rest →
          lookupAssoc (buildPlanFrom cfg plan os).groups G =
            some ⟨G, (e :: rest).flatMap (fun _ => groupMembers cfg G), e.1.name⟩ ∧
          (buildPlanFrom cfg plan os).groups.countP (fun p => p.1 == G) =
            plan.groups.countP (fun p => p.1 == G) + 1)) := by
  intro os
  induction os with
  | nil =>
    intro plan
    constructor
    · intro t ht
      refine ⟨?_, rfl⟩
      rw [buildPlanFrom, ht]
      cases t
      simp
    · intro hnone
      refine ⟨fun _ => ⟨hnone, rfl⟩, ?_⟩
      intro e rest h
      simp at h
  | cons po os' ih =>
    obtain ⟨r, o⟩ := po
    intro plan
    have hstep : buildPlanFrom cfg plan ((r, o) :: os') =
        buildPlanFrom cfg (planStep cfg plan r o) os' := rfl
    by_cases hcond : r.group = G ∧ o = RepoResult.changed
    · obtain ⟨hrg, ho⟩ := hcond
      subst ho
      have hfc : ((r, RepoResult.changed) :: os').filter
            (fun p => decide (p.1.group = G ∧ p.2 = RepoResult.changed)) =
          (r, RepoResult.changed) ::
            os'.filter (fun p => decide (p.1.group = G ∧ p.2 = RepoResult.changed)) :=
        List.filter_cons_of_pos (by simp [hrg])
      have hne : r.group ≠ "" := by rw [hrg]; exact hG
      have hps : planStep cfg plan r RepoResult.changed =
          { plan with groups := addGroupTrigger cfg plan.groups r } := by
        simp [planStep, hne]
      constructor
      · intro t ht
        have hadd := addGroupTrigger_self_some cfg plan.groups r G t hrg ht
        have hih := (ih { plan with groups := addGroupTrigger cfg plan.groups r }).1
          ⟨t.groupName, t.repositories ++ groupMembers cfg G, t.triggerRepo⟩ hadd.1
        rw [hstep, hps]
        rw [hfc]
        refine ⟨?_, ?_⟩
        · rw [hih.1]
          simp only [List.flatMap_cons, hrg]
          rw [List.append_assoc]
        · rw [hih.2]
          exact hadd.2
      · intro hnone
        have hadd := addGroupTrigger_self_none cfg plan.groups r G hrg hnone
        have hih := (ih { plan with groups := addGroupTrigger cfg plan.groups r }).1
          ⟨G, groupMembers cfg G, r.name⟩ hadd.1
        constructor
        · intro habs
          rw [hfc] at habs
          cases habs
        · intro e rest hef
          rw [hfc] at hef
          injection hef with he hrest
          subst he
          subst hrest
          rw [hstep, hps]
          refine ⟨?_, ?_⟩
          · rw [hih.1]
            simp only [List.flatMap_cons]
          · rw [hih.2]
            exact hadd.2
    · have hfc : ((r, o) :: os').filter
            (fun p => decide (p.1.group = G ∧ p.2 = RepoResult.changed)) =
          os'.filter (fun p => decide (p.1.group = G ∧ p.2 = RepoResult.changed)) :=
        List.filter_cons_of_neg (by simpa using hcond)
      have hgc : lookupAssoc (planStep cfg plan r o).groups G = lookupAssoc plan.groups G ∧
          (planStep cfg plan r o).groups.countP (fun p => p.1 == G) =
            plan.groups.countP (fun p => p.1 == G) := by
        cases o with
        | panic => exact ⟨rfl, rfl⟩
        | failed e => exact ⟨rfl, rfl⟩
        | unchanged => exact ⟨rfl, rfl⟩
        | changed =>
          have hrgne : r.group ≠ G := fun hh => hcond ⟨hh, rfl⟩
          by_cases hre : r.group = ""
          · have h1 : planStep cfg plan r RepoResult.changed =
                { plan with individuals := plan.individuals ++ [r.name] } := by
              simp [planStep, hre]
            exact ⟨by rw [h1], by rw [h1]⟩
          · have h1 : planStep cfg plan r RepoResult.changed =
                { plan with groups := addGroupTrigger cfg plan.groups r } := by
              simp [planStep, hre]
            exact ⟨by rw [h1]; exact addGroupTrigger_lookup_other cfg plan.groups r G hrgne,
                   by rw [h1]; exact addGroupTrigger_countP_other cfg plan.groups r G hrgne⟩
      constructor
      · intro t ht
        have hih := (ih (planStep cfg plan r o)).1 t (by rw [hgc.1]; exact ht)
        rw [hstep, hfc]
        exact ⟨hih.1, by rw [hih.2, hgc.2]⟩
      · intro hnone
        have hih := (ih (planStep cfg plan r o)).2 (by rw [hgc.1]; exact hnone)
        constructor
        · intro hfe
          rw [hfc] at hfe
          have := hih.1 hfe
          rw [hstep]
          exact ⟨this.1, by rw [this.2, hgc.2]⟩
        · intro e rest hef
          rw [hfc] at hef
          have := hih.2 e rest hef
          rw [hstep]
          exact ⟨this.1, by rw [this.2, hgc.2]⟩

/-- C1 (amended): in any tick in which a non-empty subset of the members
of a configured group `G` reports a new commit, the trigger plan holds
exactly one entry for `G` (so the group deployment is invoked exactly
once), its triggering repo is the first changed member in declaration
order, and its member list is the full declared membership of `G`
appended once per changed member — so it equals the declared membership
(each member exactly once, declaration order) exactly when one member
changed, and contains duplicates when several did. -/
theorem group_trigger_amplification (cfg : Config) (G : String) (hG : G ≠ "")
    (os : List (RepositoryConfig × RepoResult)) (e : RepositoryConfig × RepoResult)
    (rest : List (RepositoryConfig × RepoResult))
    (hchanged : os.filter (fun p => decide (p.1.group = G ∧ p.2 = RepoResult.changed)) =
      e :: rest) :
    lookupAssoc (buildTriggerPlan cfg os).groups G =
      some ⟨G, (e :: rest).flatMap (fun _ => groupMembers cfg G), e.1.name⟩ ∧
    (buildTriggerPlan cfg os).groups.countP (fun p => p.1 == G) = 1 ∧
    (rest = [] →
      (e :: rest).flatMap (fun _ => groupMembers cfg G) = groupMembers cfg G) := by
  have h := (buildPlanFrom_group_lookup cfg G hG os ⟨[], [], []⟩).2 rfl
  obtain ⟨h1, h2⟩ := h.2 e rest hchanged
  refine ⟨h1,
    by rw [show buildTriggerPlan cfg os = buildPlanFrom cfg ⟨[], [], []⟩ os from rfl, h2]; rfl,
    ?_⟩
  intro hre
  subst hre
  simp

/-- Witness for `group_trigger_amplification`: only `r1` of group `G`
changed, so the trigger lists the full membership `[r1, r2]` once. -/
theorem group_trigger_amplification_witness :
    (([(mkRepo "r1" "G" ["main"], RepoResult.changed),
       (mkRepo "r2" "G" ["main"], RepoResult.unchanged)].filter
        (fun p => decide (p.1.group = "G" ∧ p.2 = RepoResult.changed)) =
      [(mkRepo "r1" "G" ["main"], RepoResult.changed)]) ∧ ("G" : String) ≠ "") ∧
    lookupAssoc (buildTriggerPlan groupConfig2
        [(mkRepo "r1" "G" ["main"], RepoResult.changed),
         (mkRepo "r2" "G" ["main"], RepoResult.unchanged)]).groups "G" =
      some ⟨"G",
        [(mkRepo "r1" "G" ["main"], RepoResult.changed)].flatMap
          (fun _ => groupMembers groupConfig2 "G"),
        (mkRepo "r1" "G" ["main"]).name⟩ := by
  refine ⟨⟨by decide, by decide⟩, ?_⟩
  exact (group_trigger_amplification groupConfig2 "G" (by decide)
    [(mkRepo "r1" "G" ["main"], RepoResult.changed),
     (mkRepo "r2" "G" ["main"], RepoResult.unchanged)]
    (mkRepo "r1" "G" ["main"], RepoResult.changed) [] (by decide)).1

/-- Counterexample to C1 as stated: when both members of `G` report a new
commit in the same tick, the group's member list is the membership
repeated twice (`r1` appears twice), not each member exactly once; the
group is still dispatched exactly once. -/
theorem group_trigger_duplicate_counterexample :
    (checkAllRepositories groupConfig2 groupFetch2 groupSeen2).plan.groups =
      [("G", ⟨"G", ["r1", "r2", "r1", "r2"], "r1"⟩)] ∧
    (["r1", "r2", "r1", "r2"] : List String).count "r1" = 2 ∧
    (checkAllRepositories groupConfig2 groupFetch2 groupSeen2).plan.groups.countP
      (fun p => p.1 == "G") = 1 := by
  exact ⟨rfl, rfl, rfl⟩

/-- Counterexample to C6 as stated: branch `b1` of repository `r` fails
to probe, and the configured pair `(r, b2)` is not probed in that tick —
the branch loop of `checkRepository` returns on the first branch error. -/
theorem tick_probes_counterexample :
    (checkAllRepositories twoBranchConfig twoBranchFetch []).probed = [("r", "b1")] ∧
    configPairs twoBranchConfig = [("r", "b1"), ("r", "b2")] ∧
    ("r", "b2") ∉ (checkAllRepositories twoBranchConfig twoBranchFetch []).probed := by
  exact ⟨rfl, rfl, by decide⟩

/-- C6 (amended): on a tick where no probe errors and no change is
detected, every configured (repo, branch) pair is probed; but within one
repository the branch loop stops at the first branch whose probe fails
(`return false, err`) or reports a change (`return true, nil`), skipping
that repository's remaining branches for the tick; a repository whose
check fails does not prevent the remaining repositories from being
probed. -/
theorem tick_probe_coverage (cfg : Config)
    (commit : String → String → CommitInfo)
    (fetch : String → String → Except String CommitInfo)
    (hkeys : ∀ r ∈ cfg.repositories, ∀ b ∈ r.monitor.branches,
      ∀ r' ∈ cfg.repositories, ∀ b' ∈ r'.monitor.branches,
        r.name ++ ":" ++ b = r'.name ++ ":" ++ b' → r.name = r'.name ∧ b = b')
    (hvalid : ∀ r ∈ cfg.repositories, ∀ b ∈ r.monitor.branches,
      8 ≤ (commit r.name b).sha.utf8ByteSize)
    (hfetch : ∀ r ∈ cfg.repositories, ∀ b ∈ r.monitor.branches,
      fetch r.name b = .ok (commit r.name b)) :
    (checkAllRepositories cfg fetch []).probed = configPairs cfg ∧
    (∀ (fetchR : String → Except String CommitInfo) (seen : SeenMap) (n b : String)
        (bs : List String) (e : String),
      checkRepositoryBranch seen n b (fetchR b) = .fetchFailed e →
      checkRepository fetchR seen n (b :: bs) = ⟨.failed e, seen, [b]⟩) ∧
    (∀ (fetchR : String → Except String CommitInfo) (seen : SeenMap) (n b : String)
        (bs : List String) (s' : SeenMap),
      checkRepositoryBranch seen n b (fetchR b) = .done true s' →
      checkRepository fetchR seen n (b :: bs) = ⟨.changed, s', [b]⟩) ∧
    (∀ (fetch2 : String → String → Except String CommitInfo) (seen : SeenMap)
        (r : RepositoryConfig) (rs : List RepositoryConfig) (msg : String),
      (checkRepository (fetch2 r.name) seen r.name r.monitor.branches).res = .failed msg →
      (scanRepositories fetch2 seen (r :: rs)).probed =
        (checkRepository (fetch2 r.name) seen r.name r.monitor.branches).probed.map
          (fun b => (r.name, b)) ++
        (scanRepositories fetch2
          (checkRepository (fetch2 r.name) seen r.name r.monitor.branches).seen rs).probed) := by
  refine ⟨?_, ?_, ?_, ?_⟩
  · have hscan := scanRepositories_no_change cfg commit fetch hkeys hvalid hfetch
      cfg.repositories (fun x hx => hx) [] (seenConsistent_nil cfg commit)
    simp only [checkAllRepositories, hscan.1, configPairs]
  · intro fetchR seen n b bs e h
    simp only [checkRepository, h]
  · intro fetchR seen n b bs s' h
    simp only [checkRepository, h]
  · intro fetch2 seen r rs msg h
    simp only [scanRepositories, h]

/-- Witness for `tick_probe_coverage` at a one-repository configuration
with a constant valid fingerprint. -/
theorem tick_probe_coverage_witness :
    (∀ r ∈ timeoutConfig.repositories, ∀ b ∈ r.monitor.branches,
      (fun _ _ => (Except.ok (mkCommit "aaaaaaaa") : Except String CommitInfo)) r.name b =
        .ok ((fun _ _ => mkCommit "aaaaaaaa") r.name b)) ∧
    (checkAllRepositories timeoutConfig (fun _ _ => .ok (mkCommit "aaaaaaaa")) []).probed =
      configPairs timeoutConfig := by
  refine ⟨fun r _ b _ => rfl, ?_⟩
  exact (tick_probe_coverage timeoutConfig (fun _ _ => mkCommit "aaaaaaaa")
    (fun _ _ => .ok (mkCommit "aaaaaaaa")) (by decide)
    (fun r _ b _ => by show 8 ≤ (mkCommit "aaaaaaaa").sha.utf8ByteSize; decide)
    (fun r _ b _ => rfl)).1

end Sentry
